import Mathlib

/-!
# Verification of the `nobus` resource/cache manager (`src/nobus/managed.py`)

This file is a shallow embedding of the resource-and-cache subsystem of the
repository: `hash_md5`, `ManagedFile`, `ManagedDirectory`, `Resource` and the
cache protocol (`resolve`, `calc_cache`, `save_cache`, `create_cache`).

Modelling conventions:

* A `pathlib.Path` is modelled by its tuple of parts, `FPath := List String`.
  The `/` operator on paths is list append (all right operands appearing in
  the code are relative paths).  Python compares `Path` values by comparing
  `str(path)`, i.e. the parts joined with `"/"`; this order is `pathLeP`.
* The filesystem is an explicit state `FS`: an association list from paths to
  nodes (regular file with content bytes and mtime, directory, or symlink),
  plus the `pathlib` glob primitive, which the specification treats as an
  opaque collaborator, carried as a function field `globFn` that may inspect
  the current node table.
* Python exceptions are the `Err` inductive; fallible read-only operations
  return `Res α` and stateful operations return `RS α`, which carries the
  (possibly partially modified) filesystem state both on success and on error,
  mirroring the documented absence of rollback.
* `hashlib.md5` and `str.encode("utf-8")` are opaque collaborators (the spec
  scopes them out as "whole-file hashing" primitives); they are passed as the
  `Hashers` parameter.
* `shutil.copy2` copies content and preserves the modification time;
  `filecmp.cmp` is modelled after its source: signature (type, size, mtime)
  comparison first, shallow fast path, then full content comparison.
-/

/-- A `pathlib.Path`, represented by its `parts` tuple. -/
abbrev FPath := List String

/-- `str(path)`: the parts joined with `/` (POSIX flavour). -/
def pathStr (p : FPath) : String := String.intercalate "/" p

/-- Lexicographic order on character lists, as Python compares `str` values
(code-point order). -/
def charsLe : List Char → List Char → Bool
  | [], _ => true
  | _ :: _, [] => false
  | a :: as, b :: bs => if a < b then true else if b < a then false else charsLe as bs

/-- Strict lexicographic order on character lists. -/
def charsLt : List Char → List Char → Bool
  | [], [] => false
  | [], _ :: _ => true
  | _ :: _, [] => false
  | a :: as, b :: bs => if a < b then true else if b < a then false else charsLt as bs

theorem charsLe_total (a b : List Char) : charsLe a b = true ∨ charsLe b a = true := by
  induction a generalizing b with
  | nil => exact Or.inl rfl
  | cons x xs ih =>
    cases b with
    | nil => exact Or.inr rfl
    | cons y ys =>
      by_cases hxy : x < y
      · left; simp [charsLe, hxy]
      · by_cases hyx : y < x
        · right; simp [charsLe, hyx]
        · rcases ih ys with h | h
          · left; simp [charsLe, hxy, hyx, h]
          · right; simp [charsLe, hxy, hyx, h]

theorem charsLe_trans {a b c : List Char} (hab : charsLe a b = true)
    (hbc : charsLe b c = true) : charsLe a c = true := by
  induction a generalizing b c with
  | nil => rfl
  | cons x xs ih =>
    cases b with
    | nil => simp [charsLe] at hab
    | cons y ys =>
      cases c with
      | nil => simp [charsLe] at hbc
      | cons z zs =>
        simp only [charsLe] at hab hbc ⊢
        by_cases hxy : x < y
        · by_cases hyz : y < z
          · simp [lt_trans hxy hyz]
          · by_cases hzy : z < y
            · simp only [hyz, if_false, hzy, if_true] at hbc
              exact absurd hbc (by simp)
            · have : y = z := le_antisymm (not_lt.mp hzy) (not_lt.mp hyz)
              subst this
              simp [hxy]
        · by_cases hyx : y < x
          · simp only [hxy, if_false, hyx, if_true] at hab
            exact absurd hab (by simp)
          · have hxyeq : x = y := le_antisymm (not_lt.mp hyx) (not_lt.mp hxy)
            subst hxyeq
            by_cases hyz : x < z
            · simp [hyz]
            · by_cases hzy : z < x
              · simp only [hyz, if_false, hzy, if_true] at hbc
                exact absurd hbc (by simp)
              · simp only [hxy, if_false] at hab
                simp only [hyz, if_false, hzy, if_false] at hbc ⊢
                exact ih hab hbc

theorem charsLt_not_le {a b : List Char} (h : charsLt a b = true) :
    charsLe b a = false := by
  induction a generalizing b with
  | nil =>
    cases b with
    | nil => simp [charsLt] at h
    | cons y ys => rfl
  | cons x xs ih =>
    cases b with
    | nil => simp [charsLt] at h
    | cons y ys =>
      simp only [charsLt] at h
      simp only [charsLe]
      by_cases hxy : x < y
      · simp [not_lt_of_gt hxy, hxy]
      · by_cases hyx : y < x
        · simp only [hxy, if_false, hyx, if_true] at h
          exact absurd h (by simp)
        · simp only [hxy, if_false, hyx, if_false] at h
          simp [hxy, hyx, ih h]

/-- The order Python's `sorted` uses on `Path` values: comparison of `str(path)`. -/
def pathLeP (p q : FPath) : Prop := charsLe (pathStr p).data (pathStr q).data = true

/-- Strict version of `pathLeP`. -/
def pathLtP (p q : FPath) : Prop := charsLt (pathStr p).data (pathStr q).data = true

instance : DecidableRel pathLeP := fun _ _ =>
  inferInstanceAs (Decidable (_ = true))

instance : DecidableRel pathLtP := fun _ _ =>
  inferInstanceAs (Decidable (_ = true))

instance : IsTotal FPath pathLeP :=
  ⟨fun p q => charsLe_total (pathStr p).data (pathStr q).data⟩

instance : IsTrans FPath pathLeP :=
  ⟨fun _ _ _ hab hbc => charsLe_trans hab hbc⟩

/-- Python's `sorted` on a list of paths (sortedness and multiset content are
what the claims use; any stable comparison sort agrees on those). -/
def sortPaths (l : List FPath) : List FPath := List.insertionSort pathLeP l

theorem sortPaths_sorted (l : List FPath) : (sortPaths l).Sorted pathLeP :=
  List.sorted_insertionSort pathLeP l

theorem sortPaths_perm (l : List FPath) : (sortPaths l).Perm l :=
  List.perm_insertionSort pathLeP l

/-- `pre` is a (not necessarily proper) leading segment of `full`. -/
def segStarts : FPath → FPath → Bool
  | [], _ => true
  | _ :: _, [] => false
  | a :: as, b :: bs => a == b && segStarts as bs

theorem segStarts_iff (pre full : FPath) :
    segStarts pre full = true ↔ ∃ rest, full = pre ++ rest := by
  induction pre generalizing full with
  | nil => simp [segStarts]
  | cons a as ih =>
    cases full with
    | nil => simp [segStarts]
    | cons b bs =>
      simp only [segStarts, Bool.and_eq_true, beq_iff_eq, ih, List.cons_append,
        List.cons.injEq]
      constructor
      · rintro ⟨rfl, rest, rfl⟩; exact ⟨rest, rfl, rfl⟩
      · rintro ⟨rest, rfl, rfl⟩; exact ⟨rfl, rest, rfl⟩

theorem segStarts_refl (p : FPath) : segStarts p p = true :=
  (segStarts_iff p p).mpr ⟨[], by simp⟩

theorem segStarts_append (p rest : FPath) : segStarts p (p ++ rest) = true :=
  (segStarts_iff p (p ++ rest)).mpr ⟨rest, rfl⟩

/-- A filesystem node: regular file (content bytes, mtime), directory,
or symbolic link. -/
inductive Node where
  | file (content : List Nat) (mtime : Nat)
  | dir
  | link (target : FPath)
  deriving DecidableEq, Repr

/-- Python exception kinds raised by the code under `src/nobus/managed.py`
(`FileNotFoundError`, `FileExistsError`, `ValueError`, `TypeError`,
`IndexError`, `AttributeError`, `OSError`, `shutil.SameFileError`,
`NotADirectoryError`). -/
inductive Err where
  | fileNotFound
  | fileExists
  | valueError
  | typeError
  | indexError
  | attrError
  | osError
  | sameFile
  | notADir
  deriving DecidableEq, Repr

/-- Result of a fallible read-only operation. -/
inductive Res (α : Type) where
  | ok (a : α)
  | err (e : Err)
  deriving DecidableEq, Repr

/-- The filesystem state: node table plus the `pathlib` glob collaborator
(`(root_dir / subpath).glob(pattern)`), which may inspect the node table. -/
structure FS where
  nodes : List (FPath × Node)
  globFn : List (FPath × Node) → FPath → String → List FPath

/-- Raw (symlink-unaware) lookup of the node stored at a path. -/
def FS.lookup (fs : FS) (p : FPath) : Option Node :=
  lookGo fs.nodes p
where lookGo : List (FPath × Node) → FPath → Option Node
  | [], _ => none
  | (q, n) :: rest, p => if q = p then some n else lookGo rest p

/-- Store a node at a path (replace if present, append otherwise). -/
def FS.setNode (fs : FS) (p : FPath) (n : Node) : FS :=
  { fs with nodes := setGo fs.nodes p n }
where setGo : List (FPath × Node) → FPath → Node → List (FPath × Node)
  | [], p, n => [(p, n)]
  | (q, m) :: rest, p, n => if q = p then (p, n) :: rest else (q, m) :: setGo rest p n

/-- `os.stat` with a fuel bound on symlink chain length: resolves the node at a
path following symbolic links; `none` covers a missing path, a broken link and
a link loop alike (the loop bound `fs.nodes.length + 1` exceeds any acyclic
chain). -/
def FS.statN (fs : FS) : Nat → FPath → Option Node
  | 0, _ => none
  | fuel + 1, p =>
    match fs.lookup p with
    | some (Node.link t) => fs.statN fuel t
    | other => other

/-- `os.stat`, following symlinks. -/
def FS.stat (fs : FS) (p : FPath) : Option Node :=
  fs.statN (fs.nodes.length + 1) p

/-- `Path.exists()` (follows symlinks; swallows `OSError`, so a broken link or
a link loop reads as `False`). -/
def FS.pathExists (fs : FS) (p : FPath) : Bool :=
  (fs.stat p).isSome

/-- `Path.is_file()` (follows symlinks). -/
def FS.isFile (fs : FS) (p : FPath) : Bool :=
  match fs.stat p with
  | some (Node.file _ _) => true
  | _ => false

/-- `Path.is_dir()` (follows symlinks). -/
def FS.isDir (fs : FS) (p : FPath) : Bool :=
  match fs.stat p with
  | some Node.dir => true
  | _ => false

/-- `Path.resolve()` with a fuel bound: follows the symlink chain at the path;
`none` models the `OSError` Python raises on a symlink loop. -/
def FS.realpathN (fs : FS) : Nat → FPath → Option FPath
  | 0, _ => none
  | fuel + 1, p =>
    match fs.lookup p with
    | some (Node.link t) => fs.realpathN fuel t
    | _ => some p

/-- `Path.resolve()`. -/
def FS.realpath (fs : FS) (p : FPath) : Option FPath :=
  fs.realpathN (fs.nodes.length + 1) p

/-- Result of a stateful operation: the filesystem state is returned both on
success and on error (no rollback, matching the documented partial-write
semantics of `save_cache`). -/
inductive RS (α : Type) where
  | ok (a : α) (s : FS)
  | err (e : Err) (s : FS)

/-- `Path.mkdir(parents=True, exist_ok=True)` on the directory `cur ++ rest`:
walks the prefix chain creating missing directories; an existing non-directory
node on the chain is a `FileExistsError`. -/
def mkdirRec (fs : FS) (cur : FPath) : List String → RS Unit
  | [] => RS.ok () fs
  | x :: rest =>
    let p := cur ++ [x]
    match fs.lookup p with
    | none => mkdirRec (fs.setNode p Node.dir) p rest
    | some Node.dir => mkdirRec fs p rest
    | some _ => RS.err Err.fileExists fs

/-- `d.mkdir(parents=True, exist_ok=True)`. -/
def FS.mkdirParents (fs : FS) (d : FPath) : RS Unit :=
  mkdirRec fs [] d

/-- `shutil.copy2(src, dst)`: missing source is `FileNotFoundError`; a source
equal to the (existing) destination is `shutil.SameFileError`; copying over a
directory fails; otherwise the destination receives the source's content and
mtime (`copy2` preserves metadata). -/
def FS.copy2 (fs : FS) (src dst : FPath) : RS Unit :=
  match fs.stat src with
  | some (Node.file c m) =>
    if src = dst then RS.err Err.sameFile fs
    else
      match fs.stat dst with
      | some Node.dir => RS.err Err.fileExists fs
      | _ => RS.ok () (fs.setNode dst (Node.file c m))
  | some _ => RS.err Err.fileNotFound fs
  | none => RS.err Err.fileNotFound fs

/-- `dst.symlink_to(target)`: fails with `FileExistsError` if anything is
already stored at `dst`. -/
def FS.symlinkTo (fs : FS) (dst target : FPath) : RS Unit :=
  match fs.lookup dst with
  | none => RS.ok () (fs.setNode dst (Node.link target))
  | some _ => RS.err Err.fileExists fs

/-- `shutil.rmtree(p)`: removes the whole subtree rooted at a directory. -/
def FS.removeTree (fs : FS) (p : FPath) : RS Unit :=
  match fs.lookup p with
  | some Node.dir =>
    RS.ok () { fs with nodes := fs.nodes.filter (fun qn => !(segStarts p qn.1)) }
  | some _ => RS.err Err.notADir fs
  | none => RS.err Err.fileNotFound fs

/-- `cache_root_dir.glob('*')`: the immediate children of a directory present
in the node table. -/
def FS.children (fs : FS) (root : FPath) : List FPath :=
  fs.nodes.filterMap fun qn =>
    if qn.1.length = root.length + 1 && segStarts root qn.1 then some qn.1 else none

/-- The opaque hashing collaborators: `hashlib.md5(...).hexdigest()` on raw
bytes and `str.encode('utf-8')`. -/
structure Hashers where
  md5 : List Nat → String
  utf8 : String → List Nat

/-- `hash_md5(path)` (`managed.py`, lines 17-42): `FileNotFoundError` unless
the path is a regular file (after following symlinks), else the md5 hexdigest
of its full content. -/
def hashMd5 (H : Hashers) (fs : FS) (path : FPath) : Res String :=
  match fs.stat path with
  | some (Node.file c _) => Res.ok (H.md5 c)
  | _ => Res.err Err.fileNotFound

/-- `filecmp.cmp(f1, f2, shallow)`: `os.stat` both (missing file raises);
non-regular files compare unequal; with `shallow` equal signatures
(size, mtime) short-circuit to `True`; different sizes are unequal; otherwise
the full contents are compared. -/
def fcmp (fs : FS) (f1 f2 : FPath) (shallow : Bool) : Res Bool :=
  match fs.stat f1, fs.stat f2 with
  | some (Node.file c1 m1), some (Node.file c2 m2) =>
    if shallow && (c1.length == c2.length && m1 == m2) then Res.ok true
    else if c1.length ≠ c2.length then Res.ok false
    else Res.ok (c1 == c2)
  | some _, some _ => Res.ok false
  | _, _ => Res.err Err.fileNotFound

/-- `ManagedFile`: a tracked file, `_path` (relative) plus optional
`_root_dir`. -/
structure MFile where
  rel : FPath
  rootDir : Option FPath
  deriving DecidableEq, Repr

/-- `ManagedFile.path`: `root_dir / _path` when a root is set, else `_path`. -/
def MFile.path (mf : MFile) : FPath :=
  match mf.rootDir with
  | some r => r ++ mf.rel
  | none => mf.rel

/-- `ManagedFile.hash`. -/
def MFile.hashv (H : Hashers) (fs : FS) (mf : MFile) : Res String :=
  hashMd5 H fs mf.path

/-- `ManagedFile.compare(other, shallow=True)` with a path-like `other`:
`filecmp.cmp(self.path, other, shallow)`. -/
def MFile.compareP (fs : FS) (mf : MFile) (other : FPath) (shallow : Bool) : Res Bool :=
  fcmp fs mf.path other shallow

/-- `ManagedFile.save(dest_dir)`: `dest_path = dest_dir / self._path`, create
the parent directories, copy, return the destination path. -/
def MFile.save (fs : FS) (mf : MFile) (destDir : FPath) : RS FPath :=
  let destPath := destDir ++ mf.rel
  match fs.mkdirParents destPath.dropLast with
  | RS.err e s => RS.err e s
  | RS.ok _ s =>
    match s.copy2 mf.path destPath with
    | RS.err e s' => RS.err e s'
    | RS.ok _ s' => RS.ok destPath s'

/-- Sequence a fallible computation over a list (the Python `for` loops that
build result lists and propagate the first exception). -/
def mapRes {α β : Type} (f : α → Res β) : List α → Res (List β)
  | [] => Res.ok []
  | a :: as =>
    match f a with
    | Res.err e => Res.err e
    | Res.ok b =>
      match mapRes f as with
      | Res.err e => Res.err e
      | Res.ok bs => Res.ok (b :: bs)

/-- The `ignore` constructor argument of `ManagedDirectory`
(`None`, the `'default'` marker, an extra name set, or a custom predicate). -/
inductive IgnoreArg where
  | dflt
  | disabled
  | extra (s : List String)
  | custom (f : FPath → Bool)

/-- The baked-in ignore names. -/
def defaultIgnoreNames : List String := ["__pycache__", ".ipynb_checkpoints"]

/-- `lambda x: len(set(x.parts) & ignore_set) != 0`. -/
def segIgnore (names : List String) (p : FPath) : Bool :=
  p.any (fun seg => names.contains seg)

/-- The ignore predicate `ManagedDirectory.__init__` installs for each shape
of the `ignore` argument (`managed.py`, lines 142-157). -/
def ignoreOf : IgnoreArg → (FPath → Bool)
  | IgnoreArg.dflt => segIgnore defaultIgnoreNames
  | IgnoreArg.disabled => fun _ => false
  | IgnoreArg.extra s => segIgnore (defaultIgnoreNames ++ s)
  | IgnoreArg.custom f => f

/-- `ManagedDirectory`: the normalized `_path` mapping (subpath ↦ list of glob
patterns), the optional `_root_dir`, and the installed ignore predicate. -/
structure MDir where
  pathMap : List (FPath × List String)
  rootDir : Option FPath
  ignoreFn : FPath → Bool

/-- `ManagedDirectory(path_map, root_dir=·, ignore=·)` once `__init__` has
normalized its arguments. -/
def mkMDir (pm : List (FPath × List String)) (root : Option FPath) (ig : IgnoreArg) : MDir :=
  ⟨pm, root, ignoreOf ig⟩

/-- `ManagedDirectory.glob()` (`managed.py`, lines 172-188): for every
(subpath, pattern) pair collect `(root_dir / subpath).glob(pattern)` filtered
by the ignore predicate, then sort the concatenation. -/
def MDir.globAll (fs : FS) (md : MDir) : List FPath :=
  let root := md.rootDir.getD []
  sortPaths
    ((md.pathMap.map fun pr =>
        (pr.2.map fun g =>
          (fs.globFn fs.nodes (root ++ pr.1) g).filter fun p => !md.ignoreFn p)).flatten.flatten)

/-- `detach_root` inside `ManagedDirectory.managed_files`: checks that the
enumerated path starts with the root's parts (an out-of-range index is an
`IndexError`, a mismatch a `ValueError`) and strips them. -/
def detachRoot (rootParts : FPath) (p : FPath) : Res FPath :=
  if segStarts rootParts p then Res.ok (p.drop rootParts.length)
  else if p.length < rootParts.length then Res.err Err.indexError
  else Res.err Err.valueError

/-- `ManagedDirectory.managed_files` (`managed.py`, lines 190-204). -/
def MDir.managedFiles (fs : FS) (md : MDir) : Res (List MFile) :=
  match md.rootDir with
  | none => Res.ok ((md.globAll fs).map fun p => ⟨p, none⟩)
  | some r =>
    mapRes (fun p =>
      match detachRoot r p with
      | Res.ok rel => Res.ok (⟨rel, some r⟩ : MFile)
      | Res.err e => Res.err e) (md.globAll fs)

/-- The loop body sequence of `ManagedDirectory._zip_apply` for a pure
per-file function (`compare`/`diff` wrappers): make the destination parents,
apply the function, keep non-`None` results. -/
def zipLoop (destDir : FPath) (f : FPath → FPath → Option FPath) :
    List MFile → FS → RS (List FPath)
  | [], fs => RS.ok [] fs
  | mf :: rest, fs =>
    let destPath := destDir ++ mf.rel
    match fs.mkdirParents destPath.dropLast with
    | RS.err e s => RS.err e s
    | RS.ok _ s =>
      match zipLoop destDir f rest s with
      | RS.err e s' => RS.err e s'
      | RS.ok ps s' =>
        match f mf.path destPath with
        | some p => RS.ok (p :: ps) s'
        | none => RS.ok ps s'

/-- `ManagedDirectory._zip_apply(dest_dir, function)` (`managed.py`, lines
218-235): a `None` root is an `AttributeError` (`None.resolve()`); a resolved
destination equal to the resolved root is a `ValueError`; otherwise the loop
runs over `managed_files`. -/
def MDir.zipApply (fs : FS) (md : MDir) (destDir : FPath)
    (f : FPath → FPath → Option FPath) : RS (List FPath) :=
  match md.rootDir with
  | none => RS.err Err.attrError fs
  | some r =>
    match fs.realpath destDir, fs.realpath r with
    | some d', some r' =>
      if d' = r' then RS.err Err.valueError fs
      else
        match md.managedFiles fs with
        | Res.err e => RS.err e fs
        | Res.ok L => zipLoop destDir f L fs
    | _, _ => RS.err Err.osError fs

/-- `ManagedDirectory.compare(dest_dir, compare_function=c)` for a
deterministic comparison function `c`. -/
def MDir.compareD (fs : FS) (md : MDir) (destDir : FPath)
    (c : FPath → FPath → Bool) : RS (List FPath) :=
  md.zipApply fs destDir fun src dst => if c src dst then some src else none

/-- `ManagedDirectory.diff(dest_dir, compare_function=c)` for a deterministic
comparison function `c`. -/
def MDir.diffD (fs : FS) (md : MDir) (destDir : FPath)
    (c : FPath → FPath → Bool) : RS (List FPath) :=
  md.zipApply fs destDir fun src dst => if c src dst then none else some src

/-- A member of `Resource._objects`. -/
inductive RObj where
  | mfile (mf : MFile)
  | mdir (md : MDir)

/-- `Resource`: the ordered tracked objects and the optional shared root. -/
structure Resource where
  objects : List RObj
  rootDir : Option FPath

/-- `Resource.managed_files` (`managed.py`, lines 371-379): order-preserving
concatenation; `ManagedFile` members contribute themselves, `ManagedDirectory`
members their enumerated files. -/
def Resource.managedFiles (fs : FS) (R : Resource) : Res (List MFile) :=
  go R.objects
where go : List RObj → Res (List MFile)
  | [] => Res.ok []
  | RObj.mfile mf :: rest =>
    match go rest with
    | Res.err e => Res.err e
    | Res.ok L => Res.ok (mf :: L)
  | RObj.mdir md :: rest =>
    match md.managedFiles fs with
    | Res.err e => Res.err e
    | Res.ok L1 =>
      match go rest with
      | Res.err e => Res.err e
      | Res.ok L2 => Res.ok (L1 ++ L2)

/-- `Resource.hash` (`managed.py`, lines 385-391): write each managed file's
hash into a string buffer in order, then md5 the UTF-8 bytes of the buffer. -/
def Resource.hashR (H : Hashers) (fs : FS) (R : Resource) : Res String :=
  match R.managedFiles fs with
  | Res.err e => Res.err e
  | Res.ok L =>
    match hashFold H fs L "" with
    | Res.err e => Res.err e
    | Res.ok data => Res.ok (H.md5 (H.utf8 data))
where hashFold (H : Hashers) (fs : FS) : List MFile → String → Res String
  | [], acc => Res.ok acc
  | mf :: rest, acc =>
    match MFile.hashv H fs mf with
    | Res.err e => Res.err e
    | Res.ok h => hashFold H fs rest (acc ++ h)

/-- The per-file cache map (`dict[ManagedFile, Path | None]`); keys compare by
`ManagedFile.__eq__`, i.e. by full path. -/
abbrev CacheMap := List (MFile × Option FPath)

/-- One `d[k] = v` on the model of a Python dict: an existing key keeps its
position (and original key object) and gets the new value; a new key is
appended. -/
def dictInsert (d : CacheMap) (k : MFile) (v : Option FPath) : CacheMap :=
  if d.any (fun kv => kv.1.path == k.path) then
    d.map fun kv => if kv.1.path == k.path then (kv.1, v) else kv
  else d ++ [(k, v)]

/-- Build a dict from pairs in insertion order. -/
def dictOfPairs (pairs : CacheMap) : CacheMap :=
  pairs.foldl (fun d kv => dictInsert d kv.1 kv.2) []

/-- `Resource.cache_dirs(cache_root_dir)` (`managed.py`, lines 400-407): the
sorted immediate child directories whose name is not an ignore name. -/
def Resource.cacheDirs (fs : FS) (root : FPath) : List FPath :=
  sortPaths
    ((fs.children root).filter fun p =>
      fs.isDir p && !(defaultIgnoreNames.contains (p.getLastD "")))

/-- `Resource.last_cache_dir(cache_root_dir)` (`managed.py`, lines 409-415):
the last sorted cache directory, `None` when there is none. -/
def Resource.lastCacheDir (fs : FS) (root : FPath) : Option FPath :=
  (Resource.cacheDirs fs root).getLast?

/-- `Resource._select_cache_dir(cache_dir=·, cache_root_dir=·)` (`managed.py`,
lines 417-429): exactly one of the two must be given; with a cache root the
selected snapshot is `last_cache_dir`, which may be `None`. -/
def Resource.selectCacheDir (fs : FS) (cacheDir cacheRootDir : Option FPath) :
    Res (Option FPath) :=
  match cacheDir, cacheRootDir with
  | none, none => Res.err Err.valueError
  | some _, some _ => Res.err Err.valueError
  | some cd, none => Res.ok (some cd)
  | none, some root => Res.ok (Resource.lastCacheDir fs root)

/-- The loop body of `Resource.resolve` for one managed file: `cache_path =
cache_dir / mf._path` (a `None` cache dir is the `TypeError` Python raises on
`None / path`); a missing path is absent (`None`); a regular file resolves to
its real path; anything else raises `FileExistsError("cache must be a
file.")`. -/
def resolveOne (fs : FS) (cacheDir : Option FPath) (mf : MFile) : Res (Option FPath) :=
  match cacheDir with
  | none => Res.err Err.typeError
  | some cd =>
    let cachePath := cd ++ mf.rel
    if fs.pathExists cachePath then
      if fs.isFile cachePath then
        match fs.realpath cachePath with
        | some rp => Res.ok (some rp)
        | none => Res.err Err.osError
      else Res.err Err.fileExists
    else Res.ok none

/-- `Resource.resolve(cache_dir=·, cache_root_dir=·)` (`managed.py`, lines
431-445). -/
def Resource.resolve (fs : FS) (R : Resource) (cacheDir cacheRootDir : Option FPath) :
    Res CacheMap :=
  match Resource.selectCacheDir fs cacheDir cacheRootDir with
  | Res.err e => Res.err e
  | Res.ok sel =>
    match R.managedFiles fs with
    | Res.err e => Res.err e
    | Res.ok L =>
      match mapRes (fun mf =>
          match resolveOne fs sel mf with
          | Res.err e => Res.err e
          | Res.ok v => Res.ok (mf, v)) L with
      | Res.err e => Res.err e
      | Res.ok pairs => Res.ok (dictOfPairs pairs)

/-- The loop body of `Resource.calc_cache` for one resolved entry: an absent
snapshot entry stays `None`; otherwise `mf.compare(path)` — with the default
`shallow=True` — keeps the path when it reports equality. -/
def calcOne (fs : FS) (mf : MFile) (v : Option FPath) : Res (Option FPath) :=
  match v with
  | none => Res.ok none
  | some p =>
    match MFile.compareP fs mf p true with
    | Res.err e => Res.err e
    | Res.ok b => Res.ok (if b then some p else none)

/-- `Resource.calc_cache(cache_dir=·, cache_root_dir=·)` (`managed.py`, lines
447-464): select, then `self.resolve(cache_dir=selected)` (so an empty cache
root selects `None` and `resolve` rejects it), then the per-file comparison. -/
def Resource.calcCache (fs : FS) (R : Resource) (cacheDir cacheRootDir : Option FPath) :
    Res CacheMap :=
  match Resource.selectCacheDir fs cacheDir cacheRootDir with
  | Res.err e => Res.err e
  | Res.ok sel =>
    match R.resolve fs sel none with
    | Res.err e => Res.err e
    | Res.ok resolved =>
      match mapRes (fun kv =>
          match calcOne fs kv.1 kv.2 with
          | Res.err e => Res.err e
          | Res.ok v => Res.ok (kv.1, v)) resolved with
      | Res.err e => Res.err e
      | Res.ok pairs => Res.ok (dictOfPairs pairs)

/-- The materialization loop of `Resource.save_cache` (`managed.py`, lines
497-507): a stale/absent entry is freshly copied via `ManagedFile.save`; a
cached entry is recreated as a symlink to the prior snapshot's real file after
an explicit collision check. -/
def matLoop (saveDir : FPath) : CacheMap → FS → RS Unit
  | [], fs => RS.ok () fs
  | (mf, none) :: rest, fs =>
    match MFile.save fs mf saveDir with
    | RS.err e s => RS.err e s
    | RS.ok _ s => matLoop saveDir rest s
  | (mf, some p) :: rest, fs =>
    let savePath := saveDir ++ mf.rel
    if fs.pathExists savePath then RS.err Err.fileExists fs
    else
      match fs.mkdirParents savePath.dropLast with
      | RS.err e s => RS.err e s
      | RS.ok _ s =>
        match s.symlinkTo savePath p with
        | RS.err e s' => RS.err e s'
        | RS.ok _ s' => matLoop saveDir rest s'

/-- `Resource.save_cache(save_dir=·, cache_dir=·, cache_root_dir=·,
prevent_duplication=·, overwrite=·)` (`managed.py`, lines 466-509). -/
def Resource.saveCache (fs : FS) (R : Resource) (saveDir : FPath)
    (cacheDir cacheRootDir : Option FPath) (preventDup overwrite : Bool) : RS FPath :=
  match cacheDir, cacheRootDir with
  | none, none =>
    match R.managedFiles fs with
    | Res.err e => RS.err e fs
    | Res.ok L => saveStage2 fs R saveDir overwrite (dictOfPairs (L.map fun mf => (mf, none)))
  | cd?, crd? =>
    match Resource.selectCacheDir fs cd? crd? with
    | Res.err e => RS.err e fs
    | Res.ok sel =>
      match R.calcCache fs sel none with
      | Res.err e => RS.err e fs
      | Res.ok cache =>
        if preventDup && cache.all (fun kv => kv.2.isSome) then
          match sel with
          | some cd => RS.ok cd fs
          | none => RS.err Err.typeError fs
        else saveStage2 fs R saveDir overwrite cache
where
  /-- Destination collision handling plus materialization (`managed.py`,
  lines 488-509). -/
  saveStage2 (fs : FS) (_R : Resource) (saveDir : FPath) (overwrite : Bool)
      (cache : CacheMap) : RS FPath :=
    let isExist := fs.pathExists saveDir
    if !overwrite && isExist then RS.err Err.fileExists fs
    else
      match (if isExist then fs.removeTree saveDir else RS.ok () fs) with
      | RS.err e s => RS.err e s
      | RS.ok _ s =>
        match matLoop saveDir cache s with
        | RS.err e s' => RS.err e s'
        | RS.ok _ s' => RS.ok saveDir s'

/-- `Resource.create_cache(cache_root_dir, prevent_duplication=·)`
(`managed.py`, lines 511-535): the fresh label `utag` (time/random/fingerprint
based in Python, hence an external input here) names the new snapshot under
the cache root; delegates to `save_cache` with `overwrite=False`. -/
def Resource.createCache (fs : FS) (R : Resource) (root : FPath) (utag : String)
    (preventDup : Bool) : RS FPath :=
  R.saveCache fs (root ++ [utag]) none (some root) preventDup false

/-! ## Concrete instances used by closed theorems -/

/-- A trivial glob collaborator (no directory members are involved). -/
def exGlobFn : List (FPath × Node) → FPath → String → List FPath := fun _ _ _ => []

/-- The tracked file `ManagedFile('a.txt', root_dir='src')`. -/
def exMFa : MFile := ⟨["a.txt"], some ["src"]⟩

/-- `Resource` tracking the single file `src/a.txt`. -/
def exR1 : Resource := ⟨[RObj.mfile exMFa], some ["src"]⟩

/-- A filesystem holding only the tracked source tree `src/a.txt`. -/
def fsSelf : FS := ⟨[(["src"], Node.dir), (["src", "a.txt"], Node.file [1] 5)], exGlobFn⟩

/-- `fsSelf` after `save_cache(save_dir='src', overwrite=True)`: the source
tree was recursively removed, then the destination parent recreated. -/
def fsSelfAfter : FS := ⟨[(["src"], Node.dir)], exGlobFn⟩

/-- C1: the claim says `save_cache(save_dir = root_dir)` fails before any
filesystem modification.  `Resource.save_cache` has no destination-equals-root
guard (only `ManagedDirectory._zip_apply` has one): with `overwrite=True` it
first `rmtree`s the save dir — here the tracked source tree itself — and only
then fails with `FileNotFoundError` because the source it tries to copy was
just destroyed.  The theorem evaluates the code at the failing input: the
source file exists before the call and is gone in the state the error leaves
behind. -/
theorem save_cache_to_own_root_destroys_source :
    fsSelf.lookup ["src", "a.txt"] = some (Node.file [1] 5) ∧
    exR1.saveCache fsSelf ["src"] none none false true =
      RS.err Err.fileNotFound fsSelfAfter ∧
    fsSelfAfter.lookup ["src", "a.txt"] = none := by
  refine ⟨rfl, rfl, rfl⟩

/-- A filesystem with the tracked source and an existing cache root `cr` that
contains no snapshot subdirectory. -/
def fsEmptyRoot : FS :=
  ⟨[(["cr"], Node.dir), (["src"], Node.dir), (["src", "a.txt"], Node.file [1] 5)], exGlobFn⟩

/-- C2: the claim says `resolve`/`calc_cache` against an existing but empty
cache root mark every file absent/stale without raising.  In the code
`last_cache_dir` does yield "no cache" (`None`), but `resolve` then evaluates
`None / mf._path` (a `TypeError`), and `calc_cache` passes the `None` on to
`self.resolve(cache_dir=None)` whose argument check raises `ValueError` — so
both calls raise instead of returning the all-`None` map. -/
theorem resolve_empty_cache_root_raises :
    Resource.lastCacheDir fsEmptyRoot ["cr"] = none ∧
    exR1.resolve fsEmptyRoot none (some ["cr"]) = Res.err Err.typeError ∧
    exR1.calcCache fsEmptyRoot none (some ["cr"]) = Res.err Err.valueError := by
  refine ⟨rfl, rfl, rfl⟩

/-- A filesystem where the tracked file and the snapshot copy under `cd` have
different bytes but the same size and mtime. -/
def fsShallow : FS :=
  ⟨[(["src"], Node.dir), (["src", "a.txt"], Node.file [1, 2] 5),
    (["cd"], Node.dir), (["cd", "a.txt"], Node.file [3, 4] 5)], exGlobFn⟩

/-- C3 (counterexample): the current file holds bytes `[1,2]` and the snapshot
file bytes `[3,4]` — different content, equal size and mtime.  A byte-for-byte
comparison would classify the file stale (`None`), but `calc_cache` classifies
it cached, because `mf.compare(path)` runs `filecmp.cmp` with its default
`shallow=True`. -/
theorem calc_cache_not_bytewise :
    fsShallow.stat exMFa.path = some (Node.file [1, 2] 5) ∧
    fsShallow.stat ["cd", "a.txt"] = some (Node.file [3, 4] 5) ∧
    exR1.calcCache fsShallow (some ["cd"]) none =
      Res.ok [(exMFa, some ["cd", "a.txt"])] := by
  refine ⟨rfl, rfl, rfl⟩

/-- C3 (amended): `calc_cache` decides "cached" versus "stale" with
`ManagedFile.compare`'s default `shallow=True` semantics, not a full
byte-for-byte comparison: when both sides are regular files, the entry is kept
as cached exactly when the two files have equal size and mtime (the shallow
metadata fast path, taken without reading the bytes) or equal content. -/
theorem calc_cache_shallow_semantics (fs : FS) (mf : MFile) (p : FPath)
    (c1 c2 : List Nat) (m1 m2 : Nat)
    (h1 : fs.stat mf.path = some (Node.file c1 m1))
    (h2 : fs.stat p = some (Node.file c2 m2)) :
    calcOne fs mf (some p) =
      Res.ok (if (c1.length = c2.length ∧ m1 = m2) ∨ c1 = c2 then some p else none) := by
  simp only [calcOne, MFile.compareP, fcmp, h1, h2]
  by_cases hsig : c1.length = c2.length ∧ m1 = m2
  · simp [hsig]
  · by_cases hlen : c1.length = c2.length
    · have hm : ¬ m1 = m2 := fun hm => hsig ⟨hlen, hm⟩
      by_cases hc : c1 = c2
      · simp [hlen, hm, hc, hsig]
      · simp [hlen, hm, hc, hsig]
    · have hc : ¬ c1 = c2 := fun hc => hlen (by rw [hc])
      simp [hlen, hc, hsig]

/-- Witness for `calc_cache_shallow_semantics` at the `fsShallow` instance. -/
theorem calc_cache_shallow_semantics_witness :
    calcOne fsShallow exMFa (some ["cd", "a.txt"]) =
      Res.ok (if (([1, 2] : List Nat).length = ([3, 4] : List Nat).length ∧ 5 = 5)
                ∨ ([1, 2] : List Nat) = [3, 4] then some ["cd", "a.txt"] else none) :=
  calc_cache_shallow_semantics fsShallow exMFa ["cd", "a.txt"] [1, 2] [3, 4] 5 5 rfl rfl

/-- The ignore-filtered concatenation of per-(subpath, pattern) glob hits that
`ManagedDirectory.glob` sorts (the `ret` list right before `sorted(ret)`). -/
def MDir.rawMatches (fs : FS) (md : MDir) : List FPath :=
  let root := md.rootDir.getD []
  ((md.pathMap.map fun pr =>
      (pr.2.map fun g =>
        (fs.globFn fs.nodes (root ++ pr.1) g).filter fun p => !md.ignoreFn p)).flatten.flatten)

theorem globAll_eq_sort_rawMatches (fs : FS) (md : MDir) :
    md.globAll fs = sortPaths (md.rawMatches fs) := rfl

/-- The unfiltered concatenation of glob hits (before ignore filtering). -/
def rawHits (fs : FS) (pm : List (FPath × List String)) (root : Option FPath) : List FPath :=
  ((pm.map fun pr =>
      (pr.2.map fun g => fs.globFn fs.nodes ((root.getD []) ++ pr.1) g)).flatten.flatten)

theorem mem_globAll (fs : FS) (md : MDir) (p : FPath) :
    p ∈ md.globAll fs ↔ p ∈ rawHits fs md.pathMap md.rootDir ∧ md.ignoreFn p = false := by
  rw [globAll_eq_sort_rawMatches, (sortPaths_perm (md.rawMatches fs)).mem_iff]
  simp only [MDir.rawMatches, rawHits, List.mem_flatten, List.mem_map]
  constructor
  · rintro ⟨l, ⟨l2, ⟨pr, hpr, rfl⟩, hl⟩, hp⟩
    obtain ⟨g, hg, rfl⟩ := List.mem_map.mp hl
    rw [List.mem_filter] at hp
    exact ⟨⟨_, ⟨_, ⟨pr, hpr, rfl⟩, List.mem_map_of_mem _ hg⟩, hp.1⟩, by simpa using hp.2⟩
  · rintro ⟨⟨l, ⟨l2, ⟨pr, hpr, rfl⟩, hl⟩, hp⟩, hig⟩
    obtain ⟨g, hg, rfl⟩ := List.mem_map.mp hl
    refine ⟨_, ⟨_, ⟨pr, hpr, rfl⟩, List.mem_map_of_mem _ hg⟩, ?_⟩
    rw [List.mem_filter]
    exact ⟨hp, by simpa using hig⟩

/-- Glob collaborator for the duplicate-match example: under `d` the file
`d/foo.txt` matches both the `*.txt` and the `f*` pattern. -/
def exGlobFn6 : List (FPath × Node) → FPath → String → List FPath := fun _ root pat =>
  if root = ["d"] && (pat = "*.txt" || pat = "f*") then [["d", "foo.txt"]] else []

/-- `ManagedDirectory({'d': ...}, glob=['*.txt', 'f*'])` with the default
ignore. -/
def exMD6 : MDir := mkMDir [(["d"], ["*.txt", "f*"])] none IgnoreArg.dflt

/-- A filesystem holding `d/foo.txt`. -/
def exFS6 : FS := ⟨[(["d"], Node.dir), (["d", "foo.txt"], Node.file [1] 0)], exGlobFn6⟩

/-- C6 (counterexample): `glob()` only sorts — it never deduplicates — so a
path matching two (subpath, pattern) pairs appears twice in the result,
refuting "contains no duplicate path". -/
theorem glob_keeps_duplicates :
    exMD6.globAll exFS6 = [["d", "foo.txt"], ["d", "foo.txt"]] ∧
    ¬ (exMD6.globAll exFS6).Nodup := by
  refine ⟨by decide, by decide⟩

/-- C6 (amended): `glob()` returns the ignore-filtered matches of all
(subpath, pattern) pairs sorted by path; the multiset of results is exactly
that of the merged match list, so a path matching more than one pair is
retained once per match (no deduplication). -/
theorem glob_sorted_perm_rawMatches (fs : FS) (md : MDir) :
    (md.globAll fs).Sorted pathLeP ∧ (md.globAll fs).Perm (md.rawMatches fs) := by
  rw [globAll_eq_sort_rawMatches]
  exact ⟨sortPaths_sorted _, sortPaths_perm _⟩

/-- C9: with the default ignore argument, enumeration excludes a matching path
exactly when one of its segments is `__pycache__` or `.ipynb_checkpoints`;
constructing with `ignore=None` installs the constantly-false predicate, so
every matching path — including those — is enumerated. -/
theorem glob_default_ignore_iff (fs : FS) (pm : List (FPath × List String))
    (root : Option FPath) (p : FPath) :
    (p ∈ (mkMDir pm root IgnoreArg.dflt).globAll fs ↔
      p ∈ rawHits fs pm root ∧ ¬ ("__pycache__" ∈ p ∨ ".ipynb_checkpoints" ∈ p)) ∧
    (p ∈ (mkMDir pm root IgnoreArg.disabled).globAll fs ↔ p ∈ rawHits fs pm root) := by
  constructor
  · rw [mem_globAll]
    simp only [mkMDir, ignoreOf, segIgnore, defaultIgnoreNames]
    constructor
    · rintro ⟨hp, hig⟩
      refine ⟨hp, ?_⟩
      intro hbad
      rw [List.any_eq_false] at hig
      rcases hbad with hb | hb
      · have := hig _ hb; simp at this
      · have := hig _ hb; simp at this
    · rintro ⟨hp, hbad⟩
      refine ⟨hp, ?_⟩
      rw [List.any_eq_false]
      intro seg hseg
      intro hc
      have hmem : seg = "__pycache__" ∨ seg = ".ipynb_checkpoints" := by
        simpa using List.elem_iff.mp hc
      rcases hmem with rfl | rfl
      · exact hbad (Or.inl hseg)
      · exact hbad (Or.inr hseg)
  · rw [mem_globAll]
    simp [mkMDir, ignoreOf]

/-! ## Inversion and support lemmas -/

theorem mapRes_ok_forall2 {α β : Type} (f : α → Res β) :
    ∀ (l : List α) (ys : List β), mapRes f l = Res.ok ys ↔
      List.Forall₂ (fun a b => f a = Res.ok b) l ys := by
  intro l
  induction l with
  | nil =>
    intro ys
    constructor
    · intro h
      cases ys with
      | nil => exact List.Forall₂.nil
      | cons y ys => simp [mapRes] at h
    · intro h
      cases h
      rfl
  | cons a as ih =>
    intro ys
    constructor
    · intro h
      simp only [mapRes] at h
      cases hfa : f a with
      | err e => rw [hfa] at h; cases h
      | ok b =>
        rw [hfa] at h
        cases hrest : mapRes f as with
        | err e => rw [hrest] at h; cases h
        | ok bs =>
          rw [hrest] at h
          cases h
          exact List.Forall₂.cons hfa ((ih bs).mp hrest)
    · intro h
      cases h with
      | cons hfa hrest =>
        simp only [mapRes]
        rw [hfa, (ih _).mpr hrest]

theorem forall2_mem_left {α β : Type} {P : α → β → Prop} :
    ∀ {l : List α} {ys : List β}, List.Forall₂ P l ys → ∀ {a}, a ∈ l →
      ∃ b, b ∈ ys ∧ P a b := by
  intro l ys h
  induction h with
  | nil => intro a ha; cases ha
  | cons hp _ ih =>
    intro a ha
    rcases List.mem_cons.mp ha with rfl | ha
    · exact ⟨_, List.mem_cons_self _ _, hp⟩
    · obtain ⟨b, hb, hpb⟩ := ih ha
      exact ⟨b, List.mem_cons_of_mem _ hb, hpb⟩

theorem mapRes_ok_exists {α β : Type} (f : α → Res β) :
    ∀ (l : List α), (∀ a ∈ l, ∃ b, f a = Res.ok b) →
      ∃ ys, mapRes f l = Res.ok ys := by
  intro l
  induction l with
  | nil => intro _; exact ⟨[], rfl⟩
  | cons a as ih =>
    intro h
    obtain ⟨b, hb⟩ := h a (List.mem_cons_self a as)
    obtain ⟨ys, hys⟩ := ih fun x hx => h x (List.mem_cons_of_mem a hx)
    exact ⟨b :: ys, by simp only [mapRes]; rw [hb, hys]⟩

theorem mapRes_err_first {α β : Type} (f : α → Res β) (e : Err) :
    ∀ (l : List α), (∃ a ∈ l, f a = Res.err e) →
      (∀ a ∈ l, f a = Res.err e ∨ ∃ b, f a = Res.ok b) →
      mapRes f l = Res.err e := by
  intro l
  induction l with
  | nil => rintro ⟨a, ha, _⟩; cases ha
  | cons a as ih =>
    rintro ⟨x, hx, hfx⟩ hall
    rcases hall a (List.mem_cons_self a as) with ha | ⟨b, hb⟩
    · simp only [mapRes]; rw [ha]
    · have hxtail : x ∈ as := by
        rcases List.mem_cons.mp hx with rfl | h
        · rw [hb] at hfx; cases hfx
        · exact h
      have : mapRes f as = Res.err e :=
        ih ⟨x, hxtail, hfx⟩ fun y hy => hall y (List.mem_cons_of_mem a hy)
      simp only [mapRes]
      rw [hb, this]

theorem dictInsert_append (d : CacheMap) (k : MFile) (v : Option FPath)
    (h : ∀ kv ∈ d, kv.1.path ≠ k.path) : dictInsert d k v = d ++ [(k, v)] := by
  have hany : d.any (fun kv => kv.1.path == k.path) = false := by
    rw [List.any_eq_false]
    intro kv hkv
    simpa using h kv hkv
  simp [dictInsert, hany]

theorem dictOfPairs_self (pairs : CacheMap)
    (h : (pairs.map fun kv => kv.1.path).Nodup) : dictOfPairs pairs = pairs := by
  suffices hgen : ∀ (ps : CacheMap) (acc : CacheMap),
      (ps.map fun kv => kv.1.path).Nodup →
      (∀ kv ∈ acc, ∀ kv' ∈ ps, kv.1.path ≠ kv'.1.path) →
      ps.foldl (fun d kv => dictInsert d kv.1 kv.2) acc = acc ++ ps by
    simpa [dictOfPairs] using hgen pairs [] h (by intro kv hkv; cases hkv)
  clear h
  intro ps
  induction ps with
  | nil => intro acc _ _; simp
  | cons kv0 rest ih =>
    intro acc hnd hdisj
    simp only [List.map_cons, List.nodup_cons, List.mem_map] at hnd
    obtain ⟨hk0, hndrest⟩ := hnd
    simp only [List.foldl_cons]
    rw [dictInsert_append acc kv0.1 kv0.2
      (fun kv hkv => hdisj kv hkv kv0 (List.mem_cons_self _ _))]
    rw [ih (acc ++ [(kv0.1, kv0.2)]) hndrest ?_]
    · simp
    · intro kv hkv kv' hkv'
      rcases List.mem_append.mp hkv with h1 | h1
      · exact hdisj kv h1 kv' (List.mem_cons_of_mem _ hkv')
      · have : kv = (kv0.1, kv0.2) := by simpa using h1
        subst this
        intro hEq
        exact hk0 ⟨kv', hkv', hEq.symm⟩

theorem statN_realpathN (fs : FS) :
    ∀ (fuel : Nat) (p : FPath) (n : Node), fs.statN fuel p = some n →
      (∀ t, n ≠ Node.link t) ∧
      ∃ rp, fs.realpathN fuel p = some rp ∧ fs.lookup rp = some n := by
  intro fuel
  induction fuel with
  | zero => intro p n h; cases h
  | succ fuel ih =>
    intro p n h
    simp only [FS.statN] at h
    cases hl : fs.lookup p with
    | none => rw [hl] at h; cases h
    | some m =>
      cases m with
      | link t =>
        rw [hl] at h
        obtain ⟨hnl, rp, hrp, hlook⟩ := ih t n h
        refine ⟨hnl, rp, ?_, hlook⟩
        simp only [FS.realpathN]
        rw [hl]
        exact hrp
      | file c mt =>
        rw [hl] at h
        cases h
        refine ⟨?_, p, ?_, hl⟩
        · intro t ht; cases ht
        · simp only [FS.realpathN]
          rw [hl]
      | dir =>
        rw [hl] at h
        cases h
        refine ⟨?_, p, ?_, hl⟩
        · intro t ht; cases ht
        · simp only [FS.realpathN]
          rw [hl]

theorem stat_realpath (fs : FS) (p : FPath) (n : Node) (h : fs.stat p = some n) :
    (∀ t, n ≠ Node.link t) ∧ ∃ rp, fs.realpath p = some rp ∧ fs.lookup rp = some n :=
  statN_realpathN fs (fs.nodes.length + 1) p n h

theorem isFile_iff (fs : FS) (p : FPath) :
    fs.isFile p = true ↔ ∃ c m, fs.stat p = some (Node.file c m) := by
  unfold FS.isFile
  cases h : fs.stat p with
  | none => simp
  | some n => cases n <;> simp

theorem pathExists_iff (fs : FS) (p : FPath) :
    fs.pathExists p = true ↔ ∃ n, fs.stat p = some n := by
  unfold FS.pathExists
  cases h : fs.stat p <;> simp

theorem resolve_pairs_keys (fs : FS) (cd : Option FPath) :
    ∀ {L : List MFile} {ys : List (MFile × Option FPath)},
      List.Forall₂ (fun a b =>
        (match resolveOne fs cd a with
         | Res.err e => Res.err e
         | Res.ok v => Res.ok (a, v)) = Res.ok b) L ys →
      ys.map (fun kv => kv.1) = L := by
  intro L ys hfa
  induction hfa with
  | nil => rfl
  | @cons a b l1 l2 hp htail ih =>
    have hb1 : b.1 = a := by
      cases hro : resolveOne fs cd a with
      | err e => rw [hro] at hp; cases hp
      | ok v => rw [hro] at hp; cases hp; rfl
    simp [hb1, ih]

/-- C5: per tracked file whose expected snapshot path exists: when every
existing expected path is a regular file, `resolve` succeeds and maps each
such file to the fully resolved real path (following symlinks); when some
expected path exists but is not a regular file, `resolve` raises the
cache-corruption error (`FileExistsError("cache must be a file.")`, the
spec's `Inconsistent`). -/
theorem resolve_realpath_or_inconsistent (fs : FS) (R : Resource) (cd : FPath)
    (L : List MFile) (hL : R.managedFiles fs = Res.ok L)
    (hNodup : (L.map MFile.path).Nodup) :
    ((∀ mf ∈ L, fs.pathExists (cd ++ mf.rel) = true → fs.isFile (cd ++ mf.rel) = true) →
      ∃ pairs, R.resolve fs (some cd) none = Res.ok pairs ∧
        ∀ mf ∈ L, fs.isFile (cd ++ mf.rel) = true →
          ∃ rp, fs.realpath (cd ++ mf.rel) = some rp ∧ (mf, some rp) ∈ pairs) ∧
    ((∃ mf ∈ L, fs.pathExists (cd ++ mf.rel) = true ∧ fs.isFile (cd ++ mf.rel) = false) →
      R.resolve fs (some cd) none = Res.err Err.fileExists) := by
  have hsel : Resource.selectCacheDir fs (some cd) none = Res.ok (some cd) := rfl
  constructor
  · intro hclean
    have hex : ∀ mf ∈ L, ∃ b, (match resolveOne fs (some cd) mf with
        | Res.err e => Res.err e
        | Res.ok v => Res.ok (mf, v)) = Res.ok b := by
      intro mf hmf
      by_cases hexists : fs.pathExists (cd ++ mf.rel) = true
      · have hfile := hclean mf hmf hexists
        obtain ⟨c, m, hstat⟩ := (isFile_iff fs _).mp hfile
        obtain ⟨_, rp, hrp, _⟩ := stat_realpath fs _ _ hstat
        refine ⟨(mf, some rp), ?_⟩
        simp only [resolveOne, hexists, hfile, if_true, hrp]
      · refine ⟨(mf, none), ?_⟩
        simp only [resolveOne, hexists, if_false, Bool.false_eq_true]
    obtain ⟨ys, hys⟩ := mapRes_ok_exists _ L hex
    have hfa := (mapRes_ok_forall2 _ L ys).mp hys
    have hkeys : ys.map (fun kv => kv.1) = L := resolve_pairs_keys fs (some cd) hfa
    have hysNodup : (ys.map fun kv => kv.1.path).Nodup := by
      have : (ys.map fun kv => kv.1.path) = (ys.map fun kv => kv.1).map MFile.path := by
        simp [List.map_map]
      rw [this, hkeys]
      exact hNodup
    refine ⟨ys, ?_, ?_⟩
    · simp only [Resource.resolve, hsel, hL, hys, dictOfPairs_self ys hysNodup]
    · intro mf hmf hfile
      obtain ⟨c, m, hstat⟩ := (isFile_iff fs _).mp hfile
      obtain ⟨_, rp, hrp, _⟩ := stat_realpath fs _ _ hstat
      refine ⟨rp, hrp, ?_⟩
      obtain ⟨b, hb, hpb⟩ := forall2_mem_left hfa hmf
      have hbx : fs.pathExists (cd ++ mf.rel) = true := by
        rw [pathExists_iff]; exact ⟨_, hstat⟩
      simp only [resolveOne, hbx, hfile, if_true, hrp] at hpb
      cases hpb
      exact hb
  · rintro ⟨mf, hmf, hexists, hnotfile⟩
    have herr : mapRes (fun mf =>
        match resolveOne fs (some cd) mf with
        | Res.err e => Res.err e
        | Res.ok v => Res.ok (mf, v)) L = Res.err Err.fileExists := by
      apply mapRes_err_first
      · refine ⟨mf, hmf, ?_⟩
        simp only [resolveOne, hexists, hnotfile, if_true, if_false, Bool.false_eq_true]
      · intro a _
        by_cases hax : fs.pathExists (cd ++ a.rel) = true
        · by_cases haf : fs.isFile (cd ++ a.rel) = true
          · obtain ⟨c, m, hstat⟩ := (isFile_iff fs _).mp haf
            obtain ⟨_, rp, hrp, _⟩ := stat_realpath fs _ _ hstat
            right
            exact ⟨(a, some rp), by simp only [resolveOne, hax, haf, if_true, hrp]⟩
          · left
            simp only [resolveOne, hax, if_true]
            rw [Bool.not_eq_true] at haf
            simp [haf]
        · right
          refine ⟨(a, none), ?_⟩
          simp only [resolveOne, hax, if_false, Bool.false_eq_true]
    simp only [Resource.resolve, hsel, hL, herr]

/-- A snapshot whose entry for the tracked file is a directory (cache
corruption). -/
def fsCorrupt : FS :=
  ⟨[(["src"], Node.dir), (["src", "a.txt"], Node.file [1] 5),
    (["cd"], Node.dir), (["cd", "a.txt"], Node.dir)], exGlobFn⟩

/-- Witness for `resolve_realpath_or_inconsistent`: a snapshot holding a
directory where the tracked file is expected makes `resolve` raise. -/
theorem resolve_realpath_or_inconsistent_witness :
    exR1.resolve fsCorrupt (some ["cd"]) none = Res.err Err.fileExists :=
  (resolve_realpath_or_inconsistent fsCorrupt exR1 ["cd"] [exMFa] rfl (by decide)).2
    ⟨exMFa, by decide, by decide, by decide⟩

/-- The content bytes stored at a path (after following symlinks); `[]` when
there is no regular file there. -/
def contentOf (fs : FS) (p : FPath) : List Nat :=
  match fs.stat p with
  | some (Node.file c _) => c
  | _ => []

/-- The concatenation of the managed files' individual content digests, in
list order. -/
def joinHashes (H : Hashers) (fs : FS) : List MFile → String
  | [] => ""
  | mf :: rest => H.md5 (contentOf fs mf.path) ++ joinHashes H fs rest

theorem hashFold_join (H : Hashers) (fs : FS) (L : List MFile)
    (hfiles : ∀ mf ∈ L, fs.isFile mf.path = true) :
    ∀ acc, Resource.hashR.hashFold H fs L acc = Res.ok (acc ++ joinHashes H fs L) := by
  induction L with
  | nil => intro acc; simp [Resource.hashR.hashFold, joinHashes]
  | cons mf rest ih =>
    intro acc
    obtain ⟨c, m, hstat⟩ := (isFile_iff fs mf.path).mp (hfiles mf (List.mem_cons_self _ _))
    have hmf : MFile.hashv H fs mf = Res.ok (H.md5 (contentOf fs mf.path)) := by
      simp [MFile.hashv, hashMd5, hstat, contentOf]
    simp only [Resource.hashR.hashFold, hmf]
    rw [ih (fun x hx => hfiles x (List.mem_cons_of_mem _ hx)) (acc ++ H.md5 (contentOf fs mf.path))]
    simp [joinHashes, String.append_assoc]

theorem hashFold_congr (H : Hashers) (fs1 fs2 : FS) (L : List MFile)
    (hsame : ∀ mf ∈ L, fs2.stat mf.path = fs1.stat mf.path) :
    ∀ acc, Resource.hashR.hashFold H fs2 L acc = Resource.hashR.hashFold H fs1 L acc := by
  induction L with
  | nil => intro acc; rfl
  | cons mf rest ih =>
    intro acc
    have hstat := hsame mf (List.mem_cons_self _ _)
    have hv : MFile.hashv H fs2 mf = MFile.hashv H fs1 mf := by
      simp [MFile.hashv, hashMd5, hstat]
    simp only [Resource.hashR.hashFold, hv]
    cases MFile.hashv H fs1 mf with
    | err e => rfl
    | ok h => exact ih (fun x hx => hsame x (List.mem_cons_of_mem _ hx)) _

/-- C7: `Resource.hash` equals the digest of the UTF-8 bytes of the
concatenation of each managed file's individual content digest, taken in
`managed_files` order; and a second computation on a state whose enumeration
and tracked-file contents are unchanged yields the identical value. -/
theorem resource_hash_fingerprint (H : Hashers) (fs1 fs2 : FS) (R : Resource)
    (L : List MFile)
    (hL1 : R.managedFiles fs1 = Res.ok L)
    (hfiles : ∀ mf ∈ L, fs1.isFile mf.path = true)
    (hL2 : R.managedFiles fs2 = Res.ok L)
    (hsame : ∀ mf ∈ L, fs2.stat mf.path = fs1.stat mf.path) :
    Resource.hashR H fs1 R = Res.ok (H.md5 (H.utf8 (joinHashes H fs1 L))) ∧
    Resource.hashR H fs2 R = Resource.hashR H fs1 R := by
  have h1 : Resource.hashR H fs1 R = Res.ok (H.md5 (H.utf8 (joinHashes H fs1 L))) := by
    simp only [Resource.hashR, hL1, hashFold_join H fs1 L hfiles ""]
    simp
  refine ⟨h1, ?_⟩
  simp only [Resource.hashR, hL1, hL2, hashFold_congr H fs1 fs2 L hsame ""]

/-- A concrete pair of hash collaborators for witnesses. -/
def exHashers : Hashers :=
  ⟨fun bs => String.intercalate "," (bs.map toString), fun s => s.data.map Char.toNat⟩

/-- Witness for `resource_hash_fingerprint` at a one-file resource. -/
theorem resource_hash_fingerprint_witness :
    Resource.hashR exHashers fsSelf exR1 =
      Res.ok (exHashers.md5 (exHashers.utf8 (joinHashes exHashers fsSelf [exMFa]))) ∧
    Resource.hashR exHashers fsSelf exR1 = Resource.hashR exHashers fsSelf exR1 :=
  resource_hash_fingerprint exHashers fsSelf fsSelf exR1 [exMFa] rfl (by decide) rfl
    (fun _ _ => rfl)

/-- `ManagedFile('a.txt', root_dir='r1')`. -/
def exMFb1 : MFile := ⟨["a.txt"], some ["r1"]⟩

/-- `ManagedFile('a.txt', root_dir='r2')`: same relative path, different
root, so the same destination inside a snapshot. -/
def exMFb2 : MFile := ⟨["a.txt"], some ["r2"]⟩

/-- A resource tracking `r1/a.txt` and `r2/a.txt`. -/
def exR8 : Resource := ⟨[RObj.mfile exMFb1, RObj.mfile exMFb2], none⟩

/-- Sources with different contents (`[1]` at mtime 5, `[2]` at mtime 7). -/
def fsTwoRoots : FS :=
  ⟨[(["r1"], Node.dir), (["r1", "a.txt"], Node.file [1] 5),
    (["r2"], Node.dir), (["r2", "a.txt"], Node.file [2] 7)], exGlobFn⟩

/-- `fsTwoRoots` after `save_cache(save_dir='out')`: the second copy silently
replaced the first at `out/a.txt`. -/
def fsTwoRootsAfter : FS :=
  ⟨[(["r1"], Node.dir), (["r1", "a.txt"], Node.file [1] 5),
    (["r2"], Node.dir), (["r2", "a.txt"], Node.file [2] 7),
    (["out"], Node.dir), (["out", "a.txt"], Node.file [2] 7)], exGlobFn⟩

/-- C8 (counterexample): both tracked files materialize to the same
destination `out/a.txt` (equal `_path`, both freshly copied); the second copy
finds a file already present there, yet `save_cache` returns successfully and
silently overwrites it with the second file's bytes — no `AlreadyExists` is
raised in the fresh-copy branch. -/
theorem save_cache_copy_overwrites :
    exMFb1.rel = exMFb2.rel ∧
    exR8.saveCache fsTwoRoots ["out"] none none false false =
      RS.ok ["out"] fsTwoRootsAfter ∧
    fsTwoRootsAfter.lookup ["out", "a.txt"] = some (Node.file [2] 7) ∧
    fsTwoRoots.stat exMFb1.path = some (Node.file [1] 5) := by
  refine ⟨rfl, rfl, rfl, rfl⟩

/-- C8 (amended): during materialization only the symlink (cached) branch
treats a pre-existing file at the destination as fatal (`AlreadyExists`); the
fresh-copy branch calls `ManagedFile.save`, which silently overwrites an
existing destination file. -/
theorem save_cache_collision_symlink_only :
    (∀ (fs : FS) (saveDir : FPath) (mf : MFile) (p : FPath) (rest : CacheMap),
        fs.pathExists (saveDir ++ mf.rel) = true →
        matLoop saveDir ((mf, some p) :: rest) fs = RS.err Err.fileExists fs) ∧
    (∀ (fs s : FS) (saveDir : FPath) (mf : MFile) (c c' : List Nat) (m m' : Nat),
        fs.mkdirParents (saveDir ++ mf.rel).dropLast = RS.ok () s →
        s.stat mf.path = some (Node.file c m) →
        mf.path ≠ saveDir ++ mf.rel →
        s.stat (saveDir ++ mf.rel) = some (Node.file c' m') →
        MFile.save fs mf saveDir =
          RS.ok (saveDir ++ mf.rel) (s.setNode (saveDir ++ mf.rel) (Node.file c m))) := by
  constructor
  · intro fs saveDir mf p rest h
    simp [matLoop, h]
  · intro fs s saveDir mf c c' m m' hmk hsrc hneq hdst
    simp only [MFile.save, hmk]
    simp only [FS.copy2, hsrc, if_neg hneq, hdst]

/-- The state right before the second copy of the C8 scenario: the snapshot
directory and the first file's copy already exist at `out/a.txt`. -/
def fsMid8 : FS :=
  ⟨[(["r1"], Node.dir), (["r1", "a.txt"], Node.file [1] 5),
    (["r2"], Node.dir), (["r2", "a.txt"], Node.file [2] 7),
    (["out"], Node.dir), (["out", "a.txt"], Node.file [1] 5)], exGlobFn⟩

/-- Witness for `save_cache_collision_symlink_only`: the symlink branch
raises on collision; the copy branch overwrites the collision and succeeds. -/
theorem save_cache_collision_symlink_only_witness :
    matLoop ["cd"] [(exMFa, some ["x"])] fsShallow = RS.err Err.fileExists fsShallow ∧
    MFile.save fsMid8 exMFb2 ["out"] =
      RS.ok (["out"] ++ exMFb2.rel)
        (fsMid8.setNode (["out"] ++ exMFb2.rel) (Node.file [2] 7)) :=
  ⟨save_cache_collision_symlink_only.1 fsShallow ["cd"] exMFa ["x"] [] (by decide),
   save_cache_collision_symlink_only.2 fsMid8 fsMid8 ["out"] exMFb2 [2] [1] 7 5 rfl rfl
     (by decide) rfl⟩

theorem forall2_mem_right {α β : Type} {P : α → β → Prop} :
    ∀ {l : List α} {ys : List β}, List.Forall₂ P l ys → ∀ {b}, b ∈ ys →
      ∃ a, a ∈ l ∧ P a b := by
  intro l ys h
  induction h with
  | nil => intro b hb; cases hb
  | cons hp _ ih =>
    intro b hb
    rcases List.mem_cons.mp hb with rfl | hb
    · exact ⟨_, List.mem_cons_self _ _, hp⟩
    · obtain ⟨a, ha, hpa⟩ := ih hb
      exact ⟨a, List.mem_cons_of_mem _ ha, hpa⟩

theorem managedFiles_rootDir (fs : FS) (md : MDir) (L : List MFile)
    (h : md.managedFiles fs = Res.ok L) : ∀ mf ∈ L, mf.rootDir = md.rootDir := by
  intro mf hmf
  unfold MDir.managedFiles at h
  cases hroot : md.rootDir with
  | none =>
    rw [hroot] at h
    cases h
    obtain ⟨p, _, rfl⟩ := List.mem_map.mp hmf
    rfl
  | some r =>
    rw [hroot] at h
    have hfa := (mapRes_ok_forall2 _ _ _).mp h
    obtain ⟨a, _, hpa⟩ := forall2_mem_right hfa hmf
    cases hdr : detachRoot r a with
    | err e => rw [hdr] at hpa; cases hpa
    | ok rel => rw [hdr] at hpa; cases hpa; rfl

theorem managedFiles_path_inj (fs : FS) (md : MDir) (L : List MFile)
    (h : md.managedFiles fs = Res.ok L) :
    ∀ mf1 ∈ L, ∀ mf2 ∈ L, mf1.path = mf2.path → mf1 = mf2 := by
  intro mf1 h1 mf2 h2 hpq
  have hr1 := managedFiles_rootDir fs md L h mf1 h1
  have hr2 := managedFiles_rootDir fs md L h mf2 h2
  cases hmd : md.rootDir with
  | none =>
    rw [hmd] at hr1 hr2
    cases mf1
    cases mf2
    simp only at hr1 hr2
    subst hr1
    subst hr2
    simp only [MFile.path] at hpq
    simp [hpq]
  | some r =>
    rw [hmd] at hr1 hr2
    cases mf1
    cases mf2
    simp only at hr1 hr2
    subst hr1
    subst hr2
    simp only [MFile.path, List.append_cancel_left_eq] at hpq
    simp [hpq]

theorem zipLoop_ok (dd : FPath) (f : FPath → FPath → Option FPath) :
    ∀ (L : List MFile) (fs : FS) (res : List FPath) (s : FS),
      zipLoop dd f L fs = RS.ok res s →
      res = L.filterMap fun mf => f mf.path (dd ++ mf.rel) := by
  intro L
  induction L with
  | nil =>
    intro fs res s h
    cases h
    rfl
  | cons mf rest ih =>
    intro fs res s h
    simp only [zipLoop] at h
    cases hmk : FS.mkdirParents fs (dd ++ mf.rel).dropLast with
    | err e s1 => simp only [hmk] at h; cases h
    | ok u s1 =>
      simp only [hmk] at h
      cases hzl : zipLoop dd f rest s1 with
      | err e s2 => simp only [hzl] at h; cases h
      | ok ps s2 =>
        simp only [hzl] at h
        cases hf : f mf.path (dd ++ mf.rel) with
        | some p =>
          simp only [hf] at h
          cases h
          simp only [List.filterMap_cons, hf]
          rw [ih _ _ _ hzl]
        | none =>
          simp only [hf] at h
          cases h
          simp only [List.filterMap_cons, hf]
          exact ih _ _ _ hzl

theorem filterMap_ite_path (P : MFile → Bool) :
    ∀ L : List MFile,
      (L.filterMap fun mf => if P mf then some mf.path else none) =
        (L.filter P).map MFile.path := by
  intro L
  induction L with
  | nil => rfl
  | cons mf rest ih =>
    by_cases hp : P mf
    · simp [List.filterMap_cons, List.filter_cons, hp, ih]
    · simp [List.filterMap_cons, List.filter_cons, hp, ih]

theorem filterMap_ite_path_neg (P : MFile → Bool) :
    ∀ L : List MFile,
      (L.filterMap fun mf => if P mf then none else some mf.path) =
        (L.filter fun mf => !P mf).map MFile.path := by
  intro L
  induction L with
  | nil => rfl
  | cons mf rest ih =>
    by_cases hp : P mf
    · simp [List.filterMap_cons, List.filter_cons, hp, ih]
    · simp [List.filterMap_cons, List.filter_cons, hp, ih]

/-- C10: for a directory with a root, a destination distinct from it and a
deterministic comparison function, `compare` and `diff` partition the managed
files: `compare` returns the source paths whose comparison holds, `diff`
those whose comparison fails, together they are a permutation of all source
paths in enumeration order, and every source path lies in exactly one of the
two lists. -/
theorem compare_diff_partition (fs : FS) (md : MDir) (dd : FPath)
    (c : FPath → FPath → Bool) (L : List MFile) (cl dl : List FPath) (s1 s2 : FS)
    (hL : md.managedFiles fs = Res.ok L)
    (hc : md.compareD fs dd c = RS.ok cl s1)
    (hd : md.diffD fs dd c = RS.ok dl s2) :
    cl = (L.filter fun mf => c mf.path (dd ++ mf.rel)).map MFile.path ∧
    dl = (L.filter fun mf => !c mf.path (dd ++ mf.rel)).map MFile.path ∧
    (cl ++ dl).Perm (L.map MFile.path) ∧
    ∀ q ∈ L.map MFile.path, (q ∈ cl ↔ q ∉ dl) := by
  have hinj := managedFiles_path_inj fs md L hL
  unfold MDir.compareD at hc
  unfold MDir.diffD at hd
  unfold MDir.zipApply at hc hd
  cases hroot : md.rootDir with
  | none => simp only [hroot] at hc; cases hc
  | some r =>
    simp only [hroot] at hc hd
    cases hrd : fs.realpath dd with
    | none => simp only [hrd] at hc; cases hc
    | some d' =>
      simp only [hrd] at hc hd
      cases hrr : fs.realpath r with
      | none => simp only [hrr] at hc; cases hc
      | some r' =>
        simp only [hrr] at hc hd
        by_cases hne : d' = r'
        · rw [if_pos hne] at hc; cases hc
        · rw [if_neg hne] at hc hd
          simp only [hL] at hc hd
          have hcl : cl = (L.filter fun mf => c mf.path (dd ++ mf.rel)).map MFile.path := by
            have := zipLoop_ok dd _ L fs cl s1 hc
            rw [this, filterMap_ite_path]
          have hdl : dl = (L.filter fun mf => !c mf.path (dd ++ mf.rel)).map MFile.path := by
            have := zipLoop_ok dd _ L fs dl s2 hd
            rw [this, filterMap_ite_path_neg]
          refine ⟨hcl, hdl, ?_, ?_⟩
          · rw [hcl, hdl, ← List.map_append]
            exact (List.filter_append_perm _ L).map MFile.path
          · intro q hq
            obtain ⟨mf0, hmf0, rfl⟩ := List.mem_map.mp hq
            have hmemc : mf0.path ∈ cl ↔ c mf0.path (dd ++ mf0.rel) = true := by
              rw [hcl]
              constructor
              · intro hmem
                obtain ⟨mf, hmf, hpath⟩ := List.mem_map.mp hmem
                obtain ⟨hmfL, hP⟩ := List.mem_filter.mp hmf
                have : mf = mf0 := hinj mf hmfL mf0 hmf0 hpath
                subst this
                exact hP
              · intro hP
                exact List.mem_map_of_mem _ (List.mem_filter.mpr ⟨hmf0, hP⟩)
            have hmemd : mf0.path ∈ dl ↔ c mf0.path (dd ++ mf0.rel) = false := by
              rw [hdl]
              constructor
              · intro hmem
                obtain ⟨mf, hmf, hpath⟩ := List.mem_map.mp hmem
                obtain ⟨hmfL, hP⟩ := List.mem_filter.mp hmf
                have : mf = mf0 := hinj mf hmfL mf0 hmf0 hpath
                subst this
                simpa using hP
              · intro hP
                exact List.mem_map_of_mem _ (List.mem_filter.mpr ⟨hmf0, by simp [hP]⟩)
            rw [hmemc, hmemd]
            cases hcv : c mf0.path (dd ++ mf0.rel) <;> simp

/-- Glob collaborator for the compare/diff example: two files under `r`. -/
def exGlobFn10 : List (FPath × Node) → FPath → String → List FPath := fun _ root pat =>
  if root = ["r"] && pat = "*" then [["r", "a.txt"], ["r", "b.txt"]] else []

/-- `ManagedDirectory` over root `r` matching everything. -/
def exMD10 : MDir := mkMDir [([], ["*"])] (some ["r"]) IgnoreArg.dflt

/-- Two tracked files under `r`. -/
def exFS10 : FS :=
  ⟨[(["r"], Node.dir), (["r", "a.txt"], Node.file [1] 1),
    (["r", "b.txt"], Node.file [2] 2)], exGlobFn10⟩

/-- `exFS10` after a `compare`/`diff` run (`_zip_apply` created `out`). -/
def exFS10out : FS :=
  ⟨[(["r"], Node.dir), (["r", "a.txt"], Node.file [1] 1),
    (["r", "b.txt"], Node.file [2] 2), (["out"], Node.dir)], exGlobFn10⟩

/-- A deterministic comparison function for the witness. -/
def exCmp10 : FPath → FPath → Bool := fun src _ => src == ["r", "a.txt"]

/-- The managed files `exMD10` enumerates on `exFS10`. -/
def exL10 : List MFile := [⟨["a.txt"], some ["r"]⟩, ⟨["b.txt"], some ["r"]⟩]

/-- Witness for `compare_diff_partition` at the two-file directory. -/
theorem compare_diff_partition_witness :
    [["r", "a.txt"]] =
      ((exL10.filter fun mf => exCmp10 mf.path (["out"] ++ mf.rel)).map MFile.path) ∧
    [["r", "b.txt"]] =
      ((exL10.filter fun mf => !exCmp10 mf.path (["out"] ++ mf.rel)).map MFile.path) ∧
    (([["r", "a.txt"]] : List FPath) ++ [["r", "b.txt"]]).Perm (exL10.map MFile.path) ∧
    ∀ q ∈ exL10.map MFile.path,
      (q ∈ ([[("r" : String), "a.txt"]] : List FPath) ↔
        q ∉ ([[("r" : String), "b.txt"]] : List FPath)) :=
  compare_diff_partition exFS10 exMD10 ["out"] exCmp10 exL10
    [["r", "a.txt"]] [["r", "b.txt"]] exFS10out exFS10out rfl rfl rfl

/-! ## Support for the duplicate-avoidance claim -/

theorem lookGo_append (l1 l2 : List (FPath × Node)) (p : FPath) :
    FS.lookup.lookGo (l1 ++ l2) p =
      match FS.lookup.lookGo l1 p with
      | some n => some n
      | none => FS.lookup.lookGo l2 p := by
  induction l1 with
  | nil => simp [FS.lookup.lookGo]
  | cons qn rest ih =>
    by_cases h : qn.1 = p
    · simp [FS.lookup.lookGo, h]
    · simp only [List.cons_append, FS.lookup.lookGo, if_neg h]
      exact ih

theorem lookGo_mem (l : List (FPath × Node)) (p : FPath) (n : Node)
    (h : FS.lookup.lookGo l p = some n) : (p, n) ∈ l := by
  induction l with
  | nil => cases h
  | cons qn rest ih =>
    obtain ⟨q1, n1⟩ := qn
    simp only [FS.lookup.lookGo] at h
    by_cases hq : q1 = p
    · subst hq
      rw [if_pos rfl] at h
      cases h
      exact List.mem_cons_self _ _
    · rw [if_neg hq] at h
      exact List.mem_cons_of_mem _ (ih h)

theorem lookGo_some_of_mem (l : List (FPath × Node)) (p : FPath) (n : Node)
    (h : (p, n) ∈ l) : ∃ m, FS.lookup.lookGo l p = some m := by
  induction l with
  | nil => cases h
  | cons qn rest ih =>
    simp only [FS.lookup.lookGo]
    by_cases hq : qn.1 = p
    · exact ⟨qn.2, by rw [if_pos hq]⟩
    · rcases List.mem_cons.mp h with rfl | hmem
      · exact absurd rfl hq
      · rw [if_neg hq]
        exact ih hmem

theorem lookGo_of_mem_nodup (l : List (FPath × Node)) (p : FPath) (n : Node)
    (hnd : (l.map Prod.fst).Nodup) (h : (p, n) ∈ l) :
    FS.lookup.lookGo l p = some n := by
  induction l with
  | nil => cases h
  | cons qn rest ih =>
    simp only [List.map_cons, List.nodup_cons, List.mem_map] at hnd
    obtain ⟨hq, hndr⟩ := hnd
    simp only [FS.lookup.lookGo]
    rcases List.mem_cons.mp h with rfl | hmem
    · rw [if_pos rfl]
    · have hne : qn.1 ≠ p := fun hEq => hq ⟨(p, n), hmem, hEq.symm⟩
      rw [if_neg hne]
      exact ih hndr hmem

theorem setGo_append (l : List (FPath × Node)) (p : FPath) (n : Node)
    (h : FS.lookup.lookGo l p = none) : FS.setNode.setGo l p n = l ++ [(p, n)] := by
  induction l with
  | nil => rfl
  | cons qn rest ih =>
    simp only [FS.lookup.lookGo] at h
    by_cases hq : qn.1 = p
    · rw [if_pos hq] at h
      cases h
    · rw [if_neg hq] at h
      simp [FS.setNode.setGo, hq, ih h]

theorem statN_mono (fs : FS) :
    ∀ (fuel fuel' : Nat) (p : FPath) (n : Node), fuel ≤ fuel' →
      fs.statN fuel p = some n → fs.statN fuel' p = some n := by
  intro fuel
  induction fuel with
  | zero => intro fuel' p n _ h; cases h
  | succ f ih =>
    intro fuel' p n hle h
    cases fuel' with
    | zero => cases Nat.not_succ_le_zero f hle
    | succ f' =>
      simp only [FS.statN] at h ⊢
      cases hl : fs.lookup p with
      | none => rw [hl] at h; cases h
      | some m =>
        rw [hl] at h
        cases m with
        | link t => exact ih f' t n (Nat.le_of_succ_le_succ hle) h
        | file c mt => exact h
        | dir => exact h

theorem statN_append (fs0 fs1 : FS) (ext : List (FPath × Node))
    (hnodes : fs1.nodes = fs0.nodes ++ ext) :
    ∀ (fuel : Nat) (p : FPath) (n : Node),
      fs0.statN fuel p = some n → fs1.statN fuel p = some n := by
  have hpres : ∀ (q : FPath) (m : Node), fs0.lookup q = some m → fs1.lookup q = some m := by
    intro q m hq
    unfold FS.lookup at hq ⊢
    rw [hnodes, lookGo_append, hq]
  intro fuel
  induction fuel with
  | zero => intro p n h; cases h
  | succ f ih =>
    intro p n h
    simp only [FS.statN] at h ⊢
    cases hl : fs0.lookup p with
    | none => rw [hl] at h; cases h
    | some m =>
      rw [hl] at h
      rw [hpres p m hl]
      cases m with
      | link t => exact ih t n h
      | file c mt => exact h
      | dir => exact h

theorem stat_append (fs0 fs1 : FS) (ext : List (FPath × Node))
    (hnodes : fs1.nodes = fs0.nodes ++ ext) (p : FPath) (n : Node)
    (h : fs0.stat p = some n) : fs1.stat p = some n := by
  have h1 : fs1.statN (fs0.nodes.length + 1) p = some n :=
    statN_append fs0 fs1 ext hnodes _ p n h
  exact statN_mono fs1 _ _ p n (by rw [hnodes]; simp) h1

theorem stat_of_lookup_nonlink (fs : FS) (p : FPath) (n : Node)
    (h : fs.lookup p = some n) (hnl : ∀ t, n ≠ Node.link t) : fs.stat p = some n := by
  unfold FS.stat FS.statN
  rw [h]
  cases n with
  | link t => exact absurd rfl (hnl t)
  | file c m => rfl
  | dir => rfl

theorem nodes_len_pos_of_lookup (fs : FS) (p : FPath) (n : Node)
    (h : fs.lookup p = some n) : 1 ≤ fs.nodes.length := by
  have := lookGo_mem fs.nodes p n h
  cases hn : fs.nodes with
  | nil => rw [hn] at this; cases this
  | cons a l => simp

theorem stat_link_file (fs : FS) (p t : FPath) (c : List Nat) (m : Nat)
    (hl : fs.lookup p = some (Node.link t))
    (ht : fs.lookup t = some (Node.file c m)) : fs.stat p = some (Node.file c m) := by
  unfold FS.stat
  have hlen := nodes_len_pos_of_lookup fs p _ hl
  obtain ⟨k, hk⟩ : ∃ k, fs.nodes.length = k + 1 := ⟨fs.nodes.length - 1, by omega⟩
  rw [hk]
  simp only [FS.statN, hl, ht]

theorem realpath_nonlink (fs : FS) (p : FPath)
    (h : ∀ t, fs.lookup p ≠ some (Node.link t)) : fs.realpath p = some p := by
  unfold FS.realpath FS.realpathN
  cases hl : fs.lookup p with
  | none => rfl
  | some n =>
    cases n with
    | link t => exact absurd hl (h t)
    | file c m => rfl
    | dir => rfl

theorem realpath_link_file (fs : FS) (p t : FPath)
    (hl : fs.lookup p = some (Node.link t))
    (ht : ∀ u, fs.lookup t ≠ some (Node.link u)) : fs.realpath p = some t := by
  unfold FS.realpath
  have hlen := nodes_len_pos_of_lookup fs p _ hl
  obtain ⟨k, hk⟩ : ∃ k, fs.nodes.length = k + 1 := ⟨fs.nodes.length - 1, by omega⟩
  rw [hk]
  simp only [FS.realpathN, hl]

theorem lookGo_none_of_not_mem (l : List (FPath × Node)) (p : FPath)
    (h : p ∉ l.map Prod.fst) : FS.lookup.lookGo l p = none := by
  induction l with
  | nil => rfl
  | cons qn rest ih =>
    simp only [List.map_cons, List.mem_cons] at h
    push_neg at h
    simp only [FS.lookup.lookGo, if_neg (Ne.symm h.1)]
    exact ih h.2

theorem stat_none_of_lookup_none (fs : FS) (p : FPath) (h : fs.lookup p = none) :
    fs.stat p = none := by
  unfold FS.stat FS.statN
  rw [h]

theorem lookup_some_of_statN (fs : FS) :
    ∀ (fuel : Nat) (p : FPath) (n : Node), fs.statN fuel p = some n →
      ∃ m, fs.lookup p = some m := by
  intro fuel p n h
  cases fuel with
  | zero => cases h
  | succ f =>
    simp only [FS.statN] at h
    cases hl : fs.lookup p with
    | none => rw [hl] at h; cases h
    | some m => exact ⟨m, rfl⟩

theorem ne_self_append_singleton (l : FPath) (x : String) : l ≠ l ++ [x] := by
  intro h
  have := congrArg List.length h
  simp at this

theorem mkdirRec_chain (fs : FS) :
    ∀ (rest : List String) (cur : FPath),
      (∀ i < rest.length, fs.lookup (cur ++ rest.take (i + 1)) = some Node.dir) →
      mkdirRec fs cur rest = RS.ok () fs := by
  intro rest
  induction rest with
  | nil => intro cur _; rfl
  | cons x xs ih =>
    intro cur hdirs
    have h0 : fs.lookup (cur ++ [x]) = some Node.dir := by
      have := hdirs 0 (by simp)
      simpa using this
    simp only [mkdirRec, h0]
    apply ih (cur ++ [x])
    intro i hi
    have := hdirs (i + 1) (by simpa using Nat.succ_lt_succ hi)
    simpa [List.take_succ_cons, List.append_assoc] using this

theorem mkdirRec_create_last (fs : FS) :
    ∀ (pre : List String) (x : String) (cur : FPath),
      (∀ i < pre.length, fs.lookup (cur ++ pre.take (i + 1)) = some Node.dir) →
      fs.lookup (cur ++ pre ++ [x]) = none →
      mkdirRec fs cur (pre ++ [x]) =
        RS.ok () (fs.setNode (cur ++ pre ++ [x]) Node.dir) := by
  intro pre
  induction pre with
  | nil =>
    intro x cur _ habs
    simp only [List.append_nil] at habs ⊢
    simp only [mkdirRec, habs]
  | cons a as ih =>
    intro x cur hdirs habs
    have h0 : fs.lookup (cur ++ [a]) = some Node.dir := by
      have := hdirs 0 (by simp)
      simpa using this
    simp only [List.cons_append, mkdirRec, h0]
    have := ih x (cur ++ [a]) ?_ ?_
    · simpa [List.append_assoc] using this
    · intro i hi
      have := hdirs (i + 1) (by simpa using Nat.succ_lt_succ hi)
      simpa [List.take_succ_cons, List.append_assoc] using this
    · simpa [List.append_assoc] using habs

/-- The mtime stored at a path (after following symlinks). -/
def mtimeOf (fs : FS) (p : FPath) : Nat :=
  match fs.stat p with
  | some (Node.file _ m) => m
  | _ => 0

/-- The node `save_cache` materializes for one cache entry: a fresh copy of
the source (content and mtime preserved by `copy2`) for a stale entry, a
symlink to the prior snapshot's real file for a cached entry. -/
def tgtNode (fs0 : FS) (mf : MFile) : Option FPath → Node
  | some p => Node.link p
  | none => Node.file (contentOf fs0 mf.path) (mtimeOf fs0 mf.path)

/-- The node-table entry the materialization loop appends for one cache
entry. -/
def destEntry (fs0 : FS) (newDir : FPath) (kv : MFile × Option FPath) : FPath × Node :=
  (newDir ++ kv.1.rel, tgtNode fs0 kv.1 kv.2)

theorem lookup_ext (fs0 fs : FS) (e : List (FPath × Node)) (h : fs.nodes = fs0.nodes ++ e)
    (q : FPath) (n : Node) (hq : fs0.lookup q = some n) : fs.lookup q = some n := by
  unfold FS.lookup at hq ⊢
  rw [h, lookGo_append, hq]

theorem lookup_some_of_stat (fs : FS) (p : FPath) (n : Node) (h : fs.stat p = some n) :
    ∃ m, fs.lookup p = some m :=
  lookup_some_of_statN fs _ p n h

theorem dropLast_append_singleton (l : FPath) (x : String) : (l ++ [x]).dropLast = l := by
  simp

theorem chain_dirs (fs0 fs : FS) (e : List (FPath × Node)) (root : FPath) (utag : String)
    (hnodes : fs.nodes = fs0.nodes ++ e)
    (hRootDirs : ∀ i < root.length, fs0.lookup (root.take (i + 1)) = some Node.dir)
    (hTop : fs.lookup (root ++ [utag]) = some Node.dir) :
    ∀ i < (root ++ [utag]).length, fs.lookup ([] ++ (root ++ [utag]).take (i + 1)) = some Node.dir := by
  intro i hi
  simp only [List.nil_append]
  rw [List.length_append, List.length_singleton] at hi
  rcases Nat.lt_succ_iff_lt_or_eq.mp hi with hlt | hEq
  · rw [List.take_append_of_le_length (by omega)]
    exact lookup_ext fs0 fs e hnodes _ _ (hRootDirs i hlt)
  · have hlen : (root ++ [utag]).length = i + 1 := by
      rw [List.length_append, List.length_singleton, hEq]
    rw [← hlen, List.take_length]
    exact hTop

theorem matLoop_aux (fs0 : FS) (root : FPath) (utag : String)
    (hRootDirs : ∀ i < root.length, fs0.lookup (root.take (i + 1)) = some Node.dir)
    (hUnder : ∀ q : FPath, segStarts (root ++ [utag]) q = true → fs0.lookup q = none) :
    ∀ (items : CacheMap) (ext : List (FPath × Node)) (fs : FS),
      fs.globFn = fs0.globFn →
      fs.nodes = fs0.nodes ++ (root ++ [utag], Node.dir) :: ext →
      (∀ qn ∈ ext, ∃ name : String, qn.1 = (root ++ [utag]) ++ [name]) →
      (∀ kv ∈ items, ((root ++ [utag]) ++ (kv : MFile × Option FPath).1.rel) ∉ ext.map Prod.fst) →
      (∀ kv ∈ items, ∃ name : String, (kv : MFile × Option FPath).1.rel = [name]) →
      (∀ kv ∈ items, ∃ c m, fs0.stat (kv : MFile × Option FPath).1.path = some (Node.file c m)) →
      (items.map fun kv => kv.1.rel).Nodup →
      matLoop (root ++ [utag]) items fs =
        RS.ok () ⟨fs.nodes ++ items.map (destEntry fs0 (root ++ [utag])), fs.globFn⟩ := by
  intro items
  induction items with
  | nil =>
    intro ext fs hg hnodes _ _ _ _ _
    simp [matLoop]
  | cons kv rest ih =>
    intro ext fs hg hnodes hExtShape hExtAbsent hFlat hSrc hNodupRel
    obtain ⟨mf, v⟩ := kv
    obtain ⟨name, hname⟩ := hFlat (mf, v) (List.mem_cons_self _ _)
    simp only at hname
    have hUnderL : fs0.lookup ((root ++ [utag]) ++ mf.rel) = none :=
      hUnder _ (segStarts_append _ _)
    have hLookDest : fs.lookup ((root ++ [utag]) ++ mf.rel) = none := by
      unfold FS.lookup
      rw [hnodes, lookGo_append]
      have h0 : FS.lookup.lookGo fs0.nodes ((root ++ [utag]) ++ mf.rel) = none := hUnderL
      rw [h0]
      simp only [FS.lookup.lookGo]
      rw [if_neg (by rw [hname]; exact ne_self_append_singleton _ _)]
      exact lookGo_none_of_not_mem _ _ (hExtAbsent (mf, v) (List.mem_cons_self _ _))
    have hStatDest : fs.stat ((root ++ [utag]) ++ mf.rel) = none :=
      stat_none_of_lookup_none fs _ hLookDest
    have hTop : fs.lookup (root ++ [utag]) = some Node.dir := by
      unfold FS.lookup
      rw [hnodes, lookGo_append]
      have h0 : FS.lookup.lookGo fs0.nodes (root ++ [utag]) = none :=
        hUnder _ (segStarts_refl _)
      rw [h0]
      simp [FS.lookup.lookGo]
    have hMkdir : FS.mkdirParents fs ((root ++ [utag]) ++ mf.rel).dropLast = RS.ok () fs := by
      rw [hname, dropLast_append_singleton]
      unfold FS.mkdirParents
      exact mkdirRec_chain fs (root ++ [utag]) []
        (chain_dirs fs0 fs _ root utag hnodes hRootDirs hTop)
    have hrest := ih (ext ++ [destEntry fs0 (root ++ [utag]) (mf, v)])
    cases v with
    | none =>
      obtain ⟨c, m, hstat0⟩ := hSrc (mf, none) (List.mem_cons_self _ _)
      have hstatSrc : fs.stat mf.path = some (Node.file c m) :=
        stat_append fs0 fs _ hnodes _ _ hstat0
      have hneq : mf.path ≠ (root ++ [utag]) ++ mf.rel := by
        intro hEq
        obtain ⟨mm, hmm⟩ := lookup_some_of_stat fs0 _ _ hstat0
        rw [hEq, hUnderL] at hmm
        cases hmm
      have hsave : MFile.save fs mf (root ++ [utag]) =
          RS.ok ((root ++ [utag]) ++ mf.rel)
            ⟨fs.nodes ++ [((root ++ [utag]) ++ mf.rel, Node.file c m)], fs.globFn⟩ := by
        unfold MFile.save
        simp only [hMkdir]
        unfold FS.copy2
        simp only [hstatSrc, if_neg hneq, hStatDest]
        unfold FS.setNode
        rw [setGo_append _ _ _ hLookDest]
      have hdE : destEntry fs0 (root ++ [utag]) (mf, none) =
          ((root ++ [utag]) ++ mf.rel, Node.file c m) := by
        simp [destEntry, tgtNode, contentOf, mtimeOf, hstat0]
      simp only [matLoop, hsave]
      rw [hrest ⟨fs.nodes ++ [((root ++ [utag]) ++ mf.rel, Node.file c m)], fs.globFn⟩ hg ?hnodes
        ?hshape ?habsent ?hflat ?hsrc ?hnodup]
      case hnodes =>
        simp only [hnodes, hdE]
        simp [List.append_assoc]
      case hshape =>
        intro qn hqn
        rcases List.mem_append.mp hqn with h1 | h1
        · exact hExtShape qn h1
        · have : qn = destEntry fs0 (root ++ [utag]) (mf, none) := by simpa using h1
          subst this
          exact ⟨name, by simp [destEntry, hname]⟩
      case habsent =>
        intro kv' hkv'
        simp only [List.map_append, List.mem_append]
        push_neg
        refine ⟨hExtAbsent kv' (List.mem_cons_of_mem _ hkv'), ?_⟩
        simp only [destEntry, List.map_cons, List.map_nil, List.mem_singleton]
        intro hEq
        have hrelEq : kv'.1.rel = mf.rel := List.append_cancel_left hEq
        simp only [List.map_cons, List.nodup_cons, List.mem_map] at hNodupRel
        exact hNodupRel.1 ⟨kv', hkv', hrelEq⟩
      case hflat => exact fun kv' hkv' => hFlat kv' (List.mem_cons_of_mem _ hkv')
      case hsrc => exact fun kv' hkv' => hSrc kv' (List.mem_cons_of_mem _ hkv')
      case hnodup =>
        simp only [List.map_cons, List.nodup_cons] at hNodupRel
        exact hNodupRel.2
      simp only [hdE]
      simp [List.append_assoc, hdE]
    | some p =>
      have hnex : fs.pathExists ((root ++ [utag]) ++ mf.rel) = false := by
        unfold FS.pathExists
        rw [hStatDest]
        rfl
      have hsym : fs.symlinkTo ((root ++ [utag]) ++ mf.rel) p =
          RS.ok () ⟨fs.nodes ++ [((root ++ [utag]) ++ mf.rel, Node.link p)], fs.globFn⟩ := by
        unfold FS.symlinkTo
        rw [hLookDest]
        unfold FS.setNode
        rw [setGo_append _ _ _ hLookDest]
      have hdE : destEntry fs0 (root ++ [utag]) (mf, some p) =
          ((root ++ [utag]) ++ mf.rel, Node.link p) := by
        simp [destEntry, tgtNode]
      simp only [matLoop, hnex, Bool.false_eq_true, if_false, hMkdir, hsym]
      rw [hrest ⟨fs.nodes ++ [((root ++ [utag]) ++ mf.rel, Node.link p)], fs.globFn⟩ hg ?hnodes2
        ?hshape2 ?habsent2 ?hflat2 ?hsrc2 ?hnodup2]
      case hnodes2 =>
        simp only [hnodes, hdE]
        simp [List.append_assoc]
      case hshape2 =>
        intro qn hqn
        rcases List.mem_append.mp hqn with h1 | h1
        · exact hExtShape qn h1
        · have : qn = destEntry fs0 (root ++ [utag]) (mf, some p) := by simpa using h1
          subst this
          exact ⟨name, by simp [destEntry, hname]⟩
      case habsent2 =>
        intro kv' hkv'
        simp only [List.map_append, List.mem_append]
        push_neg
        refine ⟨hExtAbsent kv' (List.mem_cons_of_mem _ hkv'), ?_⟩
        simp only [destEntry, List.map_cons, List.map_nil, List.mem_singleton]
        intro hEq
        have hrelEq : kv'.1.rel = mf.rel := List.append_cancel_left hEq
        simp only [List.map_cons, List.nodup_cons, List.mem_map] at hNodupRel
        exact hNodupRel.1 ⟨kv', hkv', hrelEq⟩
      case hflat2 => exact fun kv' hkv' => hFlat kv' (List.mem_cons_of_mem _ hkv')
      case hsrc2 => exact fun kv' hkv' => hSrc kv' (List.mem_cons_of_mem _ hkv')
      case hnodup2 =>
        simp only [List.map_cons, List.nodup_cons] at hNodupRel
        exact hNodupRel.2
      simp only [hdE]
      simp [List.append_assoc, hdE]

theorem matLoop_run (fs0 : FS) (root : FPath) (utag : String)
    (hRootDirs : ∀ i < root.length, fs0.lookup (root.take (i + 1)) = some Node.dir)
    (hUnder : ∀ q : FPath, segStarts (root ++ [utag]) q = true → fs0.lookup q = none)
    (items : CacheMap) (hne : items ≠ [])
    (hFlat : ∀ kv ∈ items, ∃ name : String, (kv : MFile × Option FPath).1.rel = [name])
    (hSrc : ∀ kv ∈ items, ∃ c m, fs0.stat (kv : MFile × Option FPath).1.path = some (Node.file c m))
    (hNodupRel : (items.map fun kv => kv.1.rel).Nodup) :
    matLoop (root ++ [utag]) items fs0 =
      RS.ok () ⟨fs0.nodes ++ (root ++ [utag], Node.dir) ::
        items.map (destEntry fs0 (root ++ [utag])), fs0.globFn⟩ := by
  cases items with
  | nil => exact absurd rfl hne
  | cons kv rest =>
    obtain ⟨mf, v⟩ := kv
    obtain ⟨name, hname⟩ := hFlat (mf, v) (List.mem_cons_self _ _)
    simp only at hname
    have hUnderL : fs0.lookup ((root ++ [utag]) ++ mf.rel) = none :=
      hUnder _ (segStarts_append _ _)
    have hUnderTop : fs0.lookup (root ++ [utag]) = none := hUnder _ (segStarts_refl _)
    have hStatDest0 : fs0.stat ((root ++ [utag]) ++ mf.rel) = none :=
      stat_none_of_lookup_none fs0 _ hUnderL
    have hfs0' : fs0.setNode (root ++ [utag]) Node.dir =
        ⟨fs0.nodes ++ [(root ++ [utag], Node.dir)], fs0.globFn⟩ := by
      unfold FS.setNode
      rw [setGo_append _ _ _ hUnderTop]
    have hMkdir0 : FS.mkdirParents fs0 (((root ++ [utag]) ++ mf.rel).dropLast) =
        RS.ok () ⟨fs0.nodes ++ [(root ++ [utag], Node.dir)], fs0.globFn⟩ := by
      rw [hname, dropLast_append_singleton]
      unfold FS.mkdirParents
      have := mkdirRec_create_last fs0 root utag []
        (by intro i hi; simpa using hRootDirs i hi)
        (by simpa using hUnderTop)
      rw [← hfs0']
      simpa using this
    have hLookDest1 :
        (⟨fs0.nodes ++ [(root ++ [utag], Node.dir)], fs0.globFn⟩ : FS).lookup
          ((root ++ [utag]) ++ mf.rel) = none := by
      unfold FS.lookup
      simp only
      rw [lookGo_append]
      have h0 : FS.lookup.lookGo fs0.nodes ((root ++ [utag]) ++ mf.rel) = none := hUnderL
      rw [h0]
      simp only [FS.lookup.lookGo]
      rw [if_neg (by rw [hname]; exact ne_self_append_singleton _ _)]
    have hauxgo := matLoop_aux fs0 root utag hRootDirs hUnder rest
      [destEntry fs0 (root ++ [utag]) (mf, v)]
    have htailFlat : ∀ kv ∈ rest, ∃ nm : String, (kv : MFile × Option FPath).1.rel = [nm] :=
      fun kv' hkv' => hFlat kv' (List.mem_cons_of_mem _ hkv')
    have htailSrc : ∀ kv ∈ rest, ∃ c m,
        fs0.stat (kv : MFile × Option FPath).1.path = some (Node.file c m) :=
      fun kv' hkv' => hSrc kv' (List.mem_cons_of_mem _ hkv')
    have htailNodup : (rest.map fun kv => kv.1.rel).Nodup := by
      simp only [List.map_cons, List.nodup_cons] at hNodupRel
      exact hNodupRel.2
    have htailAbsent : ∀ kv ∈ rest, ((root ++ [utag]) ++ (kv : MFile × Option FPath).1.rel) ∉
        ([destEntry fs0 (root ++ [utag]) (mf, v)].map Prod.fst) := by
      intro kv' hkv'
      simp only [destEntry, List.map_cons, List.map_nil, List.mem_singleton]
      intro hEq
      have hrelEq : kv'.1.rel = mf.rel := List.append_cancel_left hEq
      simp only [List.map_cons, List.nodup_cons, List.mem_map] at hNodupRel
      exact hNodupRel.1 ⟨kv', hkv', hrelEq⟩
    have hshape1 : ∀ qn ∈ [destEntry fs0 (root ++ [utag]) (mf, v)],
        ∃ nm : String, (qn : FPath × Node).1 = (root ++ [utag]) ++ [nm] := by
      intro qn hqn
      have : qn = destEntry fs0 (root ++ [utag]) (mf, v) := by simpa using hqn
      subst this
      exact ⟨name, by simp [destEntry, hname]⟩
    cases v with
    | none =>
      obtain ⟨c, m, hstat0⟩ := hSrc (mf, none) (List.mem_cons_self _ _)
      have hstatSrc1 :
          (⟨fs0.nodes ++ [(root ++ [utag], Node.dir)], fs0.globFn⟩ : FS).stat mf.path =
            some (Node.file c m) :=
        stat_append fs0 _ _ rfl _ _ hstat0
      have hneq : mf.path ≠ (root ++ [utag]) ++ mf.rel := by
        intro hEq
        obtain ⟨mm, hmm⟩ := lookup_some_of_stat fs0 _ _ hstat0
        rw [hEq, hUnderL] at hmm
        cases hmm
      have hstatDest1 :
          (⟨fs0.nodes ++ [(root ++ [utag], Node.dir)], fs0.globFn⟩ : FS).stat
            ((root ++ [utag]) ++ mf.rel) = none :=
        stat_none_of_lookup_none _ _ hLookDest1
      have hsave : MFile.save fs0 mf (root ++ [utag]) =
          RS.ok ((root ++ [utag]) ++ mf.rel)
            ⟨(fs0.nodes ++ [(root ++ [utag], Node.dir)]) ++
              [((root ++ [utag]) ++ mf.rel, Node.file c m)], fs0.globFn⟩ := by
        unfold MFile.save
        simp only [hMkdir0]
        unfold FS.copy2
        simp only [hstatSrc1, if_neg hneq, hstatDest1]
        unfold FS.setNode
        simp only
        rw [setGo_append _ _ _ hLookDest1]
      have hdE : destEntry fs0 (root ++ [utag]) (mf, none) =
          ((root ++ [utag]) ++ mf.rel, Node.file c m) := by
        simp [destEntry, tgtNode, contentOf, mtimeOf, hstat0]
      simp only [matLoop, hsave]
      rw [hauxgo ⟨(fs0.nodes ++ [(root ++ [utag], Node.dir)]) ++
            [((root ++ [utag]) ++ mf.rel, Node.file c m)], fs0.globFn⟩ rfl
          (by simp only [hdE]; simp) hshape1 htailAbsent htailFlat htailSrc htailNodup]
      simp only [hdE]
      simp [List.append_assoc, hdE]
    | some p =>
      have hnex : fs0.pathExists ((root ++ [utag]) ++ mf.rel) = false := by
        unfold FS.pathExists
        rw [hStatDest0]
        rfl
      have hsym :
          (⟨fs0.nodes ++ [(root ++ [utag], Node.dir)], fs0.globFn⟩ : FS).symlinkTo
            ((root ++ [utag]) ++ mf.rel) p =
          RS.ok () ⟨(fs0.nodes ++ [(root ++ [utag], Node.dir)]) ++
            [((root ++ [utag]) ++ mf.rel, Node.link p)], fs0.globFn⟩ := by
        unfold FS.symlinkTo
        rw [hLookDest1]
        unfold FS.setNode
        simp only
        rw [setGo_append _ _ _ hLookDest1]
      have hdE : destEntry fs0 (root ++ [utag]) (mf, some p) =
          ((root ++ [utag]) ++ mf.rel, Node.link p) := by
        simp [destEntry, tgtNode]
      simp only [matLoop, hnex, Bool.false_eq_true, if_false, hMkdir0, hsym]
      rw [hauxgo ⟨(fs0.nodes ++ [(root ++ [utag], Node.dir)]) ++
            [((root ++ [utag]) ++ mf.rel, Node.link p)], fs0.globFn⟩ rfl
          (by simp only [hdE]; simp) hshape1 htailAbsent htailFlat htailSrc htailNodup]
      simp only [hdE]
      simp [List.append_assoc, hdE]

theorem charsLe_refl (a : List Char) : charsLe a a = true := by
  induction a with
  | nil => rfl
  | cons x xs ih => simp [charsLe, ih]

theorem pathLeP_refl (p : FPath) : pathLeP p p := charsLe_refl _

theorem sorted_le_getLast :
    ∀ (l : List FPath) (h : l ≠ []), l.Sorted pathLeP → ∀ a ∈ l, pathLeP a (l.getLast h) := by
  intro l
  induction l with
  | nil => intro h; exact absurd rfl h
  | cons b t ih =>
    intro _ hs a ha
    cases t with
    | nil =>
      have : a = b := by simpa using ha
      subst this
      exact pathLeP_refl a
    | cons c u =>
      rw [List.getLast_cons (by simp)]
      have hs' : (c :: u).Sorted pathLeP := hs.of_cons
      rcases List.mem_cons.mp ha with rfl | ha'
      · have hmem : (c :: u).getLast (by simp) ∈ c :: u := List.getLast_mem _
        exact (List.sorted_cons.mp hs).1 _ hmem
      · exact ih (by simp) hs' a ha'

theorem sortPaths_getLast_max (l : List FPath) (m : FPath) (hm : m ∈ l)
    (hlt : ∀ c ∈ l, c ≠ m → pathLtP c m) : (sortPaths l).getLast? = some m := by
  have hperm := sortPaths_perm l
  have hms : m ∈ sortPaths l := hperm.mem_iff.mpr hm
  have hne : sortPaths l ≠ [] := by
    intro h
    rw [h] at hms
    cases hms
  rw [List.getLast?_eq_getLast _ hne]
  congr 1
  have hx : (sortPaths l).getLast hne ∈ sortPaths l := List.getLast_mem _
  have hxl : (sortPaths l).getLast hne ∈ l := hperm.mem_iff.mp hx
  by_cases hEq : (sortPaths l).getLast hne = m
  · exact hEq
  · have h1 : pathLeP m ((sortPaths l).getLast hne) :=
      sorted_le_getLast _ hne (sortPaths_sorted l) m hms
    have h2 : pathLtP ((sortPaths l).getLast hne) m := hlt _ hxl hEq
    have h3 := charsLt_not_le h2
    unfold pathLeP at h1
    rw [h1] at h3
    cases h3

theorem fcmp_congr (fs1 fs2 : FS) (a b : FPath) (s : Bool)
    (ha : fs2.stat a = fs1.stat a) (hb : fs2.stat b = fs1.stat b) :
    fcmp fs2 a b s = fcmp fs1 a b s := by
  unfold fcmp
  rw [ha, hb]

theorem resolveOne_some_inv (fs : FS) (cd : FPath) (mf : MFile) (p : FPath)
    (h : resolveOne fs (some cd) mf = Res.ok (some p)) :
    ∃ c2 m2, fs.stat (cd ++ mf.rel) = some (Node.file c2 m2) ∧
      fs.realpath (cd ++ mf.rel) = some p ∧ fs.lookup p = some (Node.file c2 m2) := by
  by_cases hex : fs.pathExists (cd ++ mf.rel) = true
  · by_cases hf : fs.isFile (cd ++ mf.rel) = true
    · obtain ⟨c2, m2, hstat⟩ := (isFile_iff fs _).mp hf
      obtain ⟨hnl, rp, hrp, hlook⟩ := stat_realpath fs _ _ hstat
      simp only [resolveOne, hex, hf, if_true, hrp] at h
      cases h
      exact ⟨c2, m2, hstat, hrp, hlook⟩
    · rw [Bool.not_eq_true] at hf
      simp only [resolveOne, hex, hf, if_true, Bool.false_eq_true, if_false] at h
      cases h
  · rw [Bool.not_eq_true] at hex
    simp only [resolveOne, hex, Bool.false_eq_true, if_false] at h
    cases h

theorem calc_pairs_keys (fs : FS) :
    ∀ {RD pairs : CacheMap},
      List.Forall₂ (fun kv b =>
        (match calcOne fs (kv : MFile × Option FPath).1 kv.2 with
         | Res.err e => Res.err e
         | Res.ok v => Res.ok (kv.1, v)) = Res.ok b) RD pairs →
      pairs.map Prod.fst = RD.map Prod.fst := by
  intro RD pairs hfa
  induction hfa with
  | nil => rfl
  | @cons a b l1 l2 hp htail ih =>
    have hb1 : b.1 = a.1 := by
      cases hro : calcOne fs a.1 a.2 with
      | err e => rw [hro] at hp; cases hp
      | ok v => rw [hro] at hp; cases hp; rfl
    simp [hb1, ih]

theorem resolve_ok_inv (fs : FS) (R : Resource) (cd : FPath) (L : List MFile)
    (RD : CacheMap) (hL : R.managedFiles fs = Res.ok L)
    (hNodup : (L.map MFile.path).Nodup)
    (hres : R.resolve fs (some cd) none = Res.ok RD) :
    RD.map Prod.fst = L ∧
      ∀ kv ∈ RD, resolveOne fs (some cd) (kv : MFile × Option FPath).1 = Res.ok kv.2 := by
  have hsel : Resource.selectCacheDir fs (some cd) none = Res.ok (some cd) := rfl
  simp only [Resource.resolve, hsel, hL] at hres
  cases hmap : mapRes (fun mf =>
      match resolveOne fs (some cd) mf with
      | Res.err e => Res.err e
      | Res.ok v => Res.ok (mf, v)) L with
  | err e => rw [hmap] at hres; cases hres
  | ok pairs =>
    rw [hmap] at hres
    cases hres
    have hfa := (mapRes_ok_forall2 _ L pairs).mp hmap
    have hkeys0 : pairs.map (fun kv => kv.1) = L := resolve_pairs_keys fs (some cd) hfa
    have hkeys : pairs.map Prod.fst = L := hkeys0
    have hnd : (pairs.map fun kv => kv.1.path).Nodup := by
      have : (pairs.map fun kv => kv.1.path) = (pairs.map Prod.fst).map MFile.path := by
        simp [List.map_map]
      rw [this, hkeys]
      exact hNodup
    rw [dictOfPairs_self pairs hnd]
    refine ⟨hkeys, ?_⟩
    intro kv hkv
    obtain ⟨mf, _, hw⟩ := forall2_mem_right hfa hkv
    cases hro : resolveOne fs (some cd) mf with
    | err e => rw [hro] at hw; cases hw
    | ok v =>
      rw [hro] at hw
      cases hw
      exact hro

theorem calcCache_ok_inv (fs : FS) (R : Resource) (cd : FPath) (L : List MFile)
    (D : CacheMap) (hL : R.managedFiles fs = Res.ok L)
    (hNodup : (L.map MFile.path).Nodup)
    (hcalc : R.calcCache fs (some cd) none = Res.ok D) :
    D.map Prod.fst = L ∧
      ∀ kv ∈ D, (kv : MFile × Option FPath).2 = none ∨
        ∃ p c2 m2, kv.2 = some p ∧ fs.lookup p = some (Node.file c2 m2) ∧
          fcmp fs kv.1.path p true = Res.ok true := by
  have hsel : Resource.selectCacheDir fs (some cd) none = Res.ok (some cd) := rfl
  simp only [Resource.calcCache, hsel] at hcalc
  cases hres : R.resolve fs (some cd) none with
  | err e => simp only [hres] at hcalc; cases hcalc
  | ok RD =>
    simp only [hres] at hcalc
    obtain ⟨hRDkeys, hRDvals⟩ := resolve_ok_inv fs R cd L RD hL hNodup hres
    cases hmap : mapRes (fun kv =>
        match calcOne fs (kv : MFile × Option FPath).1 kv.2 with
        | Res.err e => Res.err e
        | Res.ok v => Res.ok (kv.1, v)) RD with
    | err e => simp only [hmap] at hcalc; cases hcalc
    | ok pairs =>
      simp only [hmap, Res.ok.injEq] at hcalc
      subst hcalc
      have hfa := (mapRes_ok_forall2 _ RD pairs).mp hmap
      have hkeys : pairs.map Prod.fst = L := by
        rw [calc_pairs_keys fs hfa, hRDkeys]
      have hnd : (pairs.map fun kv => kv.1.path).Nodup := by
        have : (pairs.map fun kv => kv.1.path) = (pairs.map Prod.fst).map MFile.path := by
          simp [List.map_map]
        rw [this, hkeys]
        exact hNodup
      rw [dictOfPairs_self pairs hnd]
      refine ⟨hkeys, ?_⟩
      intro kv hkv
      obtain ⟨kv', hkv', hw⟩ := forall2_mem_right hfa hkv
      cases hco : calcOne fs kv'.1 kv'.2 with
      | err e => rw [hco] at hw; cases hw
      | ok v =>
        rw [hco] at hw
        cases hw
        cases hv' : kv'.2 with
        | none =>
          rw [hv'] at hco
          simp only [calcOne] at hco
          cases hco
          exact Or.inl rfl
        | some p =>
          rw [hv'] at hco
          simp only [calcOne] at hco
          cases hcmp : MFile.compareP fs kv'.1 p true with
          | err e => rw [hcmp] at hco; cases hco
          | ok b =>
            simp only [hcmp, Res.ok.injEq] at hco
            subst hco
            cases b with
            | false => exact Or.inl rfl
            | true =>
              right
              have hroOne : resolveOne fs (some cd) kv'.1 = Res.ok (some p) := by
                rw [← hv']
                exact hRDvals kv' hkv'
              obtain ⟨c2, m2, _, _, hlook⟩ := resolveOne_some_inv fs cd kv'.1 p hroOne
              exact ⟨p, c2, m2, rfl, hlook, hcmp⟩

theorem lookGo_destEntries (fs0 : FS) (newDir : FPath) :
    ∀ (D : CacheMap) (kv : MFile × Option FPath), kv ∈ D →
      (D.map fun kv => kv.1.rel).Nodup →
      FS.lookup.lookGo (D.map (destEntry fs0 newDir)) (newDir ++ kv.1.rel) =
        some (tgtNode fs0 kv.1 kv.2) := by
  intro D
  induction D with
  | nil => intro kv hkv; cases hkv
  | cons kv0 rest ih =>
    intro kv hkv hnd
    simp only [List.map_cons, List.nodup_cons, List.mem_map] at hnd
    rcases List.mem_cons.mp hkv with rfl | hmem
    · simp only [List.map_cons, FS.lookup.lookGo, destEntry]
      simp
    · have hne : kv0.1.rel ≠ kv.1.rel := fun hEq => hnd.1 ⟨kv, hmem, hEq.symm⟩
      simp only [List.map_cons, FS.lookup.lookGo, destEntry]
      rw [if_neg (fun hEq => hne (List.append_cancel_left hEq))]
      exact ih kv hmem hnd.2

theorem calcCache_fs1 (fs0 fs1 : FS) (root : FPath) (utag : String) (R : Resource)
    (L : List MFile) (D : CacheMap)
    (hfs1 : fs1 = ⟨fs0.nodes ++ (root ++ [utag], Node.dir) ::
      D.map (destEntry fs0 (root ++ [utag])), fs0.globFn⟩)
    (hMF : R.managedFiles fs1 = Res.ok L)
    (hNodupP : (L.map MFile.path).Nodup)
    (hKeysD : D.map Prod.fst = L)
    (hFlatD : ∀ kv ∈ D, ∃ name : String, (kv : MFile × Option FPath).1.rel = [name])
    (hNodupRelD : (D.map fun kv => kv.1.rel).Nodup)
    (hSrcD : ∀ kv ∈ D, ∃ c m, fs0.stat (kv : MFile × Option FPath).1.path = some (Node.file c m))
    (hEntries : ∀ kv ∈ D, (kv : MFile × Option FPath).2 = none ∨
      ∃ p c2 m2, kv.2 = some p ∧ fs0.lookup p = some (Node.file c2 m2) ∧
        fcmp fs0 kv.1.path p true = Res.ok true)
    (hUnder : ∀ q : FPath, segStarts (root ++ [utag]) q = true → fs0.lookup q = none) :
    ∃ D2 : CacheMap, R.calcCache fs1 (some (root ++ [utag])) none = Res.ok D2 ∧
      D2.all (fun kv => kv.2.isSome) = true := by
  have hext : fs1.nodes = fs0.nodes ++ ((root ++ [utag], Node.dir) ::
      D.map (destEntry fs0 (root ++ [utag]))) := by rw [hfs1]
  have hLookDest : ∀ kv ∈ D, fs1.lookup ((root ++ [utag]) ++
      (kv : MFile × Option FPath).1.rel) = some (tgtNode fs0 kv.1 kv.2) := by
    intro kv hkv
    obtain ⟨name, hname⟩ := hFlatD kv hkv
    unfold FS.lookup
    rw [hext, lookGo_append]
    have h0 : FS.lookup.lookGo fs0.nodes ((root ++ [utag]) ++ kv.1.rel) = none :=
      hUnder _ (segStarts_append _ _)
    rw [h0]
    simp only [FS.lookup.lookGo]
    rw [if_neg (by rw [hname]; exact ne_self_append_singleton _ _)]
    exact lookGo_destEntries fs0 (root ++ [utag]) D kv hkv hNodupRelD
  have hstep : ∀ kv ∈ D, ∃ rp, resolveOne fs1 (some (root ++ [utag]))
      (kv : MFile × Option FPath).1 = Res.ok (some rp) ∧
      calcOne fs1 kv.1 (some rp) = Res.ok (some rp) := by
    intro kv hkv
    obtain ⟨c, m, hstat0⟩ := hSrcD kv hkv
    have hstatSrc1 : fs1.stat kv.1.path = some (Node.file c m) :=
      stat_append fs0 fs1 _ hext _ _ hstat0
    rcases hEntries kv hkv with hnone | ⟨p, c2, m2, hsomep, hlookp0, hcmp0⟩
    · -- freshly copied entry: a regular file with the source's content and mtime
      have htgt : tgtNode fs0 kv.1 kv.2 = Node.file c m := by
        rw [hnone]
        simp [tgtNode, contentOf, mtimeOf, hstat0]
      have hlook1 : fs1.lookup ((root ++ [utag]) ++ kv.1.rel) = some (Node.file c m) := by
        rw [hLookDest kv hkv, htgt]
      have hstat1 : fs1.stat ((root ++ [utag]) ++ kv.1.rel) = some (Node.file c m) :=
        stat_of_lookup_nonlink fs1 _ _ hlook1 (fun t ht => by cases ht)
      have hex1 : fs1.pathExists ((root ++ [utag]) ++ kv.1.rel) = true := by
        unfold FS.pathExists
        rw [hstat1]
        rfl
      have hf1 : fs1.isFile ((root ++ [utag]) ++ kv.1.rel) = true := by
        unfold FS.isFile
        rw [hstat1]
      have hrp1 : fs1.realpath ((root ++ [utag]) ++ kv.1.rel) =
          some ((root ++ [utag]) ++ kv.1.rel) :=
        realpath_nonlink fs1 _ (fun t ht => by rw [hlook1] at ht; cases ht)
      refine ⟨(root ++ [utag]) ++ kv.1.rel, ?_, ?_⟩
      · simp only [resolveOne, hex1, hf1, if_true, hrp1]
      · simp only [calcOne, MFile.compareP, fcmp, hstatSrc1, hstat1]
        simp
    · -- symlinked entry: a link to the prior snapshot's real file
      have htgt : tgtNode fs0 kv.1 kv.2 = Node.link p := by
        rw [hsomep]
        rfl
      have hlook1 : fs1.lookup ((root ++ [utag]) ++ kv.1.rel) = some (Node.link p) := by
        rw [hLookDest kv hkv, htgt]
      have hlookp1 : fs1.lookup p = some (Node.file c2 m2) :=
        lookup_ext fs0 fs1 _ hext _ _ hlookp0
      have hstat1 : fs1.stat ((root ++ [utag]) ++ kv.1.rel) = some (Node.file c2 m2) :=
        stat_link_file fs1 _ p c2 m2 hlook1 hlookp1
      have hex1 : fs1.pathExists ((root ++ [utag]) ++ kv.1.rel) = true := by
        unfold FS.pathExists
        rw [hstat1]
        rfl
      have hf1 : fs1.isFile ((root ++ [utag]) ++ kv.1.rel) = true := by
        unfold FS.isFile
        rw [hstat1]
      have hrp1 : fs1.realpath ((root ++ [utag]) ++ kv.1.rel) = some p :=
        realpath_link_file fs1 _ p hlook1 (fun u hu => by rw [hlookp1] at hu; cases hu)
      have hstatp1 : fs1.stat p = some (Node.file c2 m2) :=
        stat_of_lookup_nonlink fs1 _ _ hlookp1 (fun t ht => by cases ht)
      have hstatp0 : fs0.stat p = some (Node.file c2 m2) :=
        stat_of_lookup_nonlink fs0 _ _ hlookp0 (fun t ht => by cases ht)
      have hcmp1 : fcmp fs1 kv.1.path p true = Res.ok true := by
        rw [fcmp_congr fs0 fs1 kv.1.path p true (by rw [hstatSrc1, hstat0]) (by rw [hstatp1, hstatp0])]
        exact hcmp0
      refine ⟨p, ?_, ?_⟩
      · simp only [resolveOne, hex1, hf1, if_true, hrp1]
      · simp only [calcOne, MFile.compareP, hcmp1]
        simp
  -- run resolve on fs1
  have hstepL : ∀ mf ∈ L, ∃ rp, resolveOne fs1 (some (root ++ [utag])) mf = Res.ok (some rp) ∧
      calcOne fs1 mf (some rp) = Res.ok (some rp) := by
    intro mf hmf
    rw [← hKeysD] at hmf
    obtain ⟨kv, hkv, hfst⟩ := List.mem_map.mp hmf
    rw [← hfst]
    exact hstep kv hkv
  have hexres : ∀ mf ∈ L, ∃ b, (match resolveOne fs1 (some (root ++ [utag])) mf with
      | Res.err e => Res.err e
      | Res.ok v => Res.ok (mf, v)) = Res.ok b := by
    intro mf hmf
    obtain ⟨rp, hro, _⟩ := hstepL mf hmf
    exact ⟨(mf, some rp), by rw [hro]⟩
  obtain ⟨ys, hys⟩ := mapRes_ok_exists _ L hexres
  have hfa := (mapRes_ok_forall2 _ L ys).mp hys
  have hkeys : ys.map (fun kvp => kvp.1) = L := resolve_pairs_keys fs1 (some (root ++ [utag])) hfa
  have hndys : (ys.map fun kvp => kvp.1.path).Nodup := by
    have : (ys.map fun kvp => kvp.1.path) = (ys.map fun kvp => kvp.1).map MFile.path := by
      simp [List.map_map]
    rw [this, hkeys]
    exact hNodupP
  have hres1 : R.resolve fs1 (some (root ++ [utag])) none = Res.ok ys := by
    have hsel : Resource.selectCacheDir fs1 (some (root ++ [utag])) none =
      Res.ok (some (root ++ [utag])) := rfl
    simp only [Resource.resolve, hsel, hMF, hys, dictOfPairs_self ys hndys]
  have hysvals : ∀ kvp ∈ ys, ∃ rp, (kvp : MFile × Option FPath).2 = some rp ∧
      calcOne fs1 kvp.1 (some rp) = Res.ok (some rp) := by
    intro kvp hkvp
    obtain ⟨mf, hmf, hw⟩ := forall2_mem_right hfa hkvp
    obtain ⟨rp, hro, hcal⟩ := hstepL mf hmf
    rw [hro] at hw
    cases hw
    exact ⟨rp, rfl, hcal⟩
  have hexcalc : ∀ kvp ∈ ys, ∃ b, (match calcOne fs1 (kvp : MFile × Option FPath).1 kvp.2 with
      | Res.err e => Res.err e
      | Res.ok v => Res.ok (kvp.1, v)) = Res.ok b := by
    intro kvp hkvp
    obtain ⟨rp, hv, hcal⟩ := hysvals kvp hkvp
    refine ⟨(kvp.1, some rp), ?_⟩
    rw [hv, hcal]
  obtain ⟨pairs2, hpairs2⟩ := mapRes_ok_exists _ ys hexcalc
  have hfa2 := (mapRes_ok_forall2 _ ys pairs2).mp hpairs2
  have hkeys2 : pairs2.map Prod.fst = ys.map Prod.fst := calc_pairs_keys fs1 hfa2
  have hnd2 : (pairs2.map fun kvp => kvp.1.path).Nodup := by
    have h1 : (pairs2.map fun kvp => kvp.1.path) = (pairs2.map Prod.fst).map MFile.path := by
      simp [List.map_map]
    have h2 : ys.map Prod.fst = L := hkeys
    rw [h1, hkeys2, h2]
    exact hNodupP
  refine ⟨pairs2, ?_, ?_⟩
  · have hsel : Resource.selectCacheDir fs1 (some (root ++ [utag])) none =
      Res.ok (some (root ++ [utag])) := rfl
    simp only [Resource.calcCache, hsel, hres1, hpairs2, dictOfPairs_self pairs2 hnd2]
  · rw [List.all_eq_true]
    intro kvp2 hkvp2
    obtain ⟨kvp, hkvp, hw⟩ := forall2_mem_right hfa2 hkvp2
    obtain ⟨rp, hv, hcal⟩ := hysvals kvp hkvp
    rw [hv, hcal] at hw
    cases hw
    rfl

theorem lastCacheDir_fs1 (fs0 fs1 : FS) (root : FPath) (utag : String) (D : CacheMap)
    (hfs1 : fs1 = ⟨fs0.nodes ++ (root ++ [utag], Node.dir) ::
      D.map (destEntry fs0 (root ++ [utag])), fs0.globFn⟩)
    (hFlatD : ∀ kv ∈ D, ∃ name : String, (kv : MFile × Option FPath).1.rel = [name])
    (hKeys0 : (fs0.nodes.map Prod.fst).Nodup)
    (hChildNoLink : ∀ qn ∈ fs0.nodes, (qn : FPath × Node).1.length = root.length + 1 →
      segStarts root qn.1 = true → ∀ t, qn.2 ≠ Node.link t)
    (hUnder : ∀ q : FPath, segStarts (root ++ [utag]) q = true → fs0.lookup q = none)
    (hTagIgn : defaultIgnoreNames.contains utag = false)
    (hMax : ∀ c ∈ Resource.cacheDirs fs0 root, pathLtP c (root ++ [utag])) :
    Resource.lastCacheDir fs1 root = some (root ++ [utag]) := by
  have hext : fs1.nodes = fs0.nodes ++ ((root ++ [utag], Node.dir) ::
      D.map (destEntry fs0 (root ++ [utag]))) := by rw [hfs1]
  have hchild : FS.children fs1 root = FS.children fs0 root ++ [root ++ [utag]] := by
    unfold FS.children
    rw [hext, List.filterMap_append]
    congr 1
    simp only [List.filterMap_cons]
    have hhead : (if ((root ++ [utag], Node.dir) : FPath × Node).1.length = root.length + 1 &&
        segStarts root ((root ++ [utag], Node.dir) : FPath × Node).1 then
          some ((root ++ [utag], Node.dir) : FPath × Node).1 else none) =
        some (root ++ [utag]) := by
      simp [segStarts_append]
    rw [hhead]
    have htail : (D.map (destEntry fs0 (root ++ [utag]))).filterMap (fun qn =>
        if qn.1.length = root.length + 1 && segStarts root qn.1 then some qn.1 else none) = [] := by
      rw [List.filterMap_eq_nil_iff]
      intro qn hqn
      obtain ⟨kv, hkv, rfl⟩ := List.mem_map.mp hqn
      obtain ⟨name, hname⟩ := hFlatD kv hkv
      simp [destEntry, hname]
    rw [htail]
  have hstable : ∀ c ∈ FS.children fs0 root, fs1.isDir c = fs0.isDir c := by
    intro c hc
    unfold FS.children at hc
    obtain ⟨qn, hqn, hg⟩ := List.mem_filterMap.mp hc
    by_cases hcond : (qn.1.length = root.length + 1 && segStarts root qn.1) = true
    · rw [if_pos hcond] at hg
      cases hg
      simp only [Bool.and_eq_true, decide_eq_true_eq] at hcond
      have hmemn : (qn.1, qn.2) ∈ fs0.nodes := by simpa using hqn
      have hlook0 : fs0.lookup qn.1 = some qn.2 := by
        unfold FS.lookup
        exact lookGo_of_mem_nodup fs0.nodes qn.1 qn.2 hKeys0 hmemn
      have hnl := hChildNoLink qn hqn hcond.1 hcond.2
      have hstat0 : fs0.stat qn.1 = some qn.2 := stat_of_lookup_nonlink fs0 _ _ hlook0 hnl
      have hstat1 : fs1.stat qn.1 = some qn.2 := stat_append fs0 fs1 _ hext _ _ hstat0
      unfold FS.isDir
      rw [hstat0, hstat1]
    · rw [if_neg hcond] at hg
      cases hg
  have hlookTop : fs1.lookup (root ++ [utag]) = some Node.dir := by
    unfold FS.lookup
    rw [hext, lookGo_append]
    have h0 : FS.lookup.lookGo fs0.nodes (root ++ [utag]) = none := hUnder _ (segStarts_refl _)
    rw [h0]
    simp [FS.lookup.lookGo]
  have heligNew : (fs1.isDir (root ++ [utag]) &&
      !(defaultIgnoreNames.contains ((root ++ [utag]).getLastD ""))) = true := by
    have hd : fs1.isDir (root ++ [utag]) = true := by
      unfold FS.isDir
      rw [stat_of_lookup_nonlink fs1 _ _ hlookTop (fun t ht => by cases ht)]
    have hlast : (root ++ [utag]).getLastD "" = utag := by simp
    rw [hd, hlast, hTagIgn]
    rfl
  unfold Resource.lastCacheDir Resource.cacheDirs
  rw [hchild, List.filter_append]
  rw [List.filter_congr (fun c hc => by rw [hstable c hc])]
  have hfnew : List.filter (fun p => fs1.isDir p &&
      !(defaultIgnoreNames.contains (p.getLastD ""))) [root ++ [utag]] = [root ++ [utag]] := by
    simp only [List.filter_cons, heligNew]
    rfl
  rw [hfnew]
  apply sortPaths_getLast_max
  · exact List.mem_append_right _ (List.mem_singleton.mpr rfl)
  · intro c hc hne
    rcases List.mem_append.mp hc with h1 | h1
    · apply hMax
      unfold Resource.cacheDirs
      exact (sortPaths_perm _).mem_iff.mpr h1
    · exact absurd (List.mem_singleton.mp h1) hne

/-- C4: on a cache root holding a reference snapshot, when `create_cache`
materializes a new snapshot (some tracked file was stale) and no tracked
file's content changes afterwards, a second `create_cache` with
`prevent_duplication` selects the snapshot the first call created, finds
every tracked file already cached there (copies compare equal by preserved
content and mtime; symlinks resolve to the prior snapshot's unchanged real
files), and returns the first call's snapshot path with the filesystem state
untouched — no new snapshot directory is created.  Hypotheses: the resource's
enumeration is filesystem-independent with distinct single-segment relative
paths, sources are regular files, the cache root's ancestors are directories,
nothing exists under the new snapshot path, cache-root children are plain
nodes, and the fresh label sorts strictly after every existing snapshot. -/
theorem create_cache_duplicate_avoidance (fs0 : FS) (R : Resource) (root refDir : FPath)
    (utag1 utag2 : String) (L : List MFile) (D : CacheMap)
    (hMF : ∀ fs : FS, R.managedFiles fs = Res.ok L)
    (hNodupP : (L.map MFile.path).Nodup)
    (hNodupR : (L.map MFile.rel).Nodup)
    (hFlat : ∀ mf ∈ L, ∃ name : String, mf.rel = [name])
    (hSrc : ∀ mf ∈ L, fs0.isFile mf.path = true)
    (hKeys0 : (fs0.nodes.map Prod.fst).Nodup)
    (hRootDirs : ∀ i < root.length, fs0.lookup (root.take (i + 1)) = some Node.dir)
    (hUnderN : ∀ qn ∈ fs0.nodes, segStarts (root ++ [utag1]) (qn : FPath × Node).1 = false)
    (hChildNoLink : ∀ qn ∈ fs0.nodes, (qn : FPath × Node).1.length = root.length + 1 →
      segStarts root qn.1 = true → ∀ t, qn.2 ≠ Node.link t)
    (hTagIgn : defaultIgnoreNames.contains utag1 = false)
    (hMax : ∀ c ∈ Resource.cacheDirs fs0 root, pathLtP c (root ++ [utag1]))
    (hSel : Resource.lastCacheDir fs0 root = some refDir)
    (hCalc : R.calcCache fs0 (some refDir) none = Res.ok D)
    (hStale : ∃ kv ∈ D, (kv : MFile × Option FPath).2 = none) :
    ∃ fs1 : FS, R.createCache fs0 root utag1 true = RS.ok (root ++ [utag1]) fs1 ∧
      R.createCache fs1 root utag2 true = RS.ok (root ++ [utag1]) fs1 := by
  have hUnder : ∀ q : FPath, segStarts (root ++ [utag1]) q = true → fs0.lookup q = none := by
    intro q hq
    cases hl : fs0.lookup q with
    | none => rfl
    | some n =>
      have hmem := lookGo_mem fs0.nodes q n hl
      have hF := hUnderN (q, n) hmem
      simp only at hF
      rw [hq] at hF
      cases hF
  obtain ⟨hKeysD, hEntries⟩ := calcCache_ok_inv fs0 R refDir L D (hMF fs0) hNodupP hCalc
  have hmemD : ∀ kv ∈ D, (kv : MFile × Option FPath).1 ∈ L := by
    intro kv hkv
    rw [← hKeysD]
    exact List.mem_map_of_mem _ hkv
  have hFlatD : ∀ kv ∈ D, ∃ name : String, (kv : MFile × Option FPath).1.rel = [name] :=
    fun kv hkv => hFlat _ (hmemD kv hkv)
  have hSrcD : ∀ kv ∈ D, ∃ c m,
      fs0.stat (kv : MFile × Option FPath).1.path = some (Node.file c m) :=
    fun kv hkv => (isFile_iff _ _).mp (hSrc _ (hmemD kv hkv))
  have hNodupRelD : (D.map fun kv => kv.1.rel).Nodup := by
    have : (D.map fun kv => kv.1.rel) = (D.map Prod.fst).map MFile.rel := by
      simp [List.map_map]
    rw [this, hKeysD]
    exact hNodupR
  have hDne : D ≠ [] := by
    obtain ⟨kv, hkv, _⟩ := hStale
    intro h
    rw [h] at hkv
    cases hkv
  have hsel0 : Resource.selectCacheDir fs0 none (some root) = Res.ok (some refDir) := by
    have heq : Resource.selectCacheDir fs0 none (some root) =
        Res.ok (Resource.lastCacheDir fs0 root) := rfl
    rw [heq, hSel]
  have hallD : D.all (fun kv => kv.2.isSome) = false := by
    obtain ⟨kv, hkv, hv⟩ := hStale
    rw [List.all_eq_false]
    exact ⟨kv, hkv, by rw [hv]; simp⟩
  have hmat := matLoop_run fs0 root utag1 hRootDirs hUnder D hDne hFlatD hSrcD hNodupRelD
  have hexist0 : fs0.pathExists (root ++ [utag1]) = false := by
    unfold FS.pathExists
    rw [stat_none_of_lookup_none fs0 _ (hUnder _ (segStarts_refl _))]
    rfl
  refine ⟨⟨fs0.nodes ++ (root ++ [utag1], Node.dir) ::
    D.map (destEntry fs0 (root ++ [utag1])), fs0.globFn⟩, ?_, ?_⟩
  · unfold Resource.createCache Resource.saveCache
    simp only [hsel0, hCalc, hallD, Bool.and_false, Bool.false_eq_true, if_false]
    unfold Resource.saveCache.saveStage2
    simp only [hexist0, Bool.and_false, Bool.false_eq_true, if_false, hmat]
  · unfold Resource.createCache Resource.saveCache
    have hsel1 : Resource.selectCacheDir
        (⟨fs0.nodes ++ (root ++ [utag1], Node.dir) ::
          D.map (destEntry fs0 (root ++ [utag1])), fs0.globFn⟩ : FS) none (some root) =
        Res.ok (some (root ++ [utag1])) := by
      have heq : Resource.selectCacheDir
          (⟨fs0.nodes ++ (root ++ [utag1], Node.dir) ::
            D.map (destEntry fs0 (root ++ [utag1])), fs0.globFn⟩ : FS) none (some root) =
          Res.ok (Resource.lastCacheDir
            (⟨fs0.nodes ++ (root ++ [utag1], Node.dir) ::
              D.map (destEntry fs0 (root ++ [utag1])), fs0.globFn⟩ : FS) root) := rfl
      rw [heq,
        lastCacheDir_fs1 fs0 _ root utag1 D rfl hFlatD hKeys0 hChildNoLink hUnder hTagIgn hMax]
    obtain ⟨D2, hD2, hD2all⟩ := calcCache_fs1 fs0 _ root utag1 R L D rfl
      (hMF _) hNodupP hKeysD hFlatD hNodupRelD hSrcD hEntries hUnder
    simp only [hsel1, hD2, hD2all, Bool.and_self, if_true]

/-- A cache root `cr` with one (empty) prior snapshot `s0` and the tracked
source `src/a.txt`. -/
def exFSC4 : FS :=
  ⟨[(["src"], Node.dir), (["src", "a.txt"], Node.file [1, 2] 5),
    (["cr"], Node.dir), (["cr", "s0"], Node.dir)], exGlobFn⟩

/-- Witness for `create_cache_duplicate_avoidance`: the first `create_cache`
materializes `cr/s1`, the second returns `cr/s1` and leaves the state
unchanged. -/
theorem create_cache_duplicate_avoidance_witness :
    ∃ fs1 : FS, exR1.createCache exFSC4 ["cr"] "s1" true = RS.ok (["cr"] ++ ["s1"]) fs1 ∧
      exR1.createCache fs1 ["cr"] "s2" true = RS.ok (["cr"] ++ ["s1"]) fs1 :=
  create_cache_duplicate_avoidance exFSC4 exR1 ["cr"] ["cr", "s0"] "s1" "s2"
    [exMFa] [(exMFa, none)]
    (fun _ => rfl)
    (by decide)
    (by decide)
    (by
      intro mf hmf
      have : mf = exMFa := by simpa using hmf
      subst this
      exact ⟨"a.txt", rfl⟩)
    (by decide)
    (by decide)
    (by decide)
    (by decide)
    (by
      intro qn hqn _ _ t
      simp only [exFSC4, List.mem_cons, List.not_mem_nil, or_false] at hqn
      rcases hqn with rfl | rfl | rfl | rfl <;> intro hbad <;> cases hbad)
    (by decide)
    (by decide)
    (by decide)
    (by decide)
    ⟨(exMFa, none), by decide, rfl⟩
